import Mathlib

/-!
Verification of the catalog reconciler in `tools/sync_models.mjs`
(reached through the deprecated wrapper `tools/sync-crak.mjs`).

The development shallowly embeds the data model and the reconciliation
pipeline of the script: performer records, the brand normalizer, the
insertion-ordered map used for the performer table (JavaScript `Map`
semantics), the per-page fetch with its error recovery, the per-brand
quota computation, the paged fetch loop with its 250-page safety cap,
the previous-table / fresh merge, the three-phase catalog assembly,
and the conditional catalog write.  Upstream HTTP responses are an
oracle `String → Nat → PageResponse` giving the response for each
brand and page.  Network transport itself, timestamps and file I/O are
outside the embedding; the write decision and the written contents are
modelled as fields of `RunResult`.
-/

set_option linter.unusedVariables false

/-- A performer record, as far as the reconciler interprets it.  A string
field that is absent upstream is modelled as `""` (both are falsy for the
`||` chains of the script).  `payload` stands for all remaining opaque
fields, so that distinct upstream records stay distinct. -/
structure Performer where
  itemId : String := ""
  id : String := ""
  systemSource : String := ""
  source : String := ""
  brand : String := ""
  payload : Nat := 0
deriving DecidableEq, Repr

/-- JavaScript `String.prototype.trim`, modelled on the character list
(core `String.trim` is not structurally recursive, so it would not
evaluate inside the kernel). -/
def jsTrim (s : String) : String :=
  ⟨((s.data.dropWhile Char.isWhitespace).reverse.dropWhile Char.isWhitespace).reverse⟩

/-- JavaScript `String.prototype.toLowerCase`, modelled on the character
list. -/
def jsToLower (s : String) : String :=
  ⟨s.data.map Char.toLower⟩

/-- Does the second list start with the first? -/
def leadsWith : List Char → List Char → Bool
  | [], _ => true
  | _ :: _, [] => false
  | p :: ps, c :: cs => p == c && leadsWith ps cs

/-- JavaScript `String.prototype.includes`, modelled on character lists. -/
def includesStr (pat : List Char) : List Char → Bool
  | [] => leadsWith pat []
  | c :: rest => leadsWith pat (c :: rest) || includesStr pat rest

/-- `idFor`: `String(p?.itemId || p?.id || "").trim()`. -/
def idFor (p : Performer) : String :=
  jsTrim (if p.itemId ≠ "" then p.itemId else if p.id ≠ "" then p.id else "")

/-- `normalizeBrand`: lower-case, trim, collapse the two known synonyms. -/
def normalizeBrand (s : String) : String :=
  let b := jsTrim (jsToLower s)
  if b = "" then ""
  else if includesStr ("bonga").data b.data then "bongacams"
  else if includesStr ("royal").data b.data then "royalcams"
  else b

/-- A JavaScript `Map` with string keys: insertion-ordered association
list.  The script builds every such map through `set`, so keys are unique. -/
abbrev AssocMap (α : Type) := List (String × α)

/-- `Map.prototype.has`. -/
def mapHas {α : Type} : AssocMap α → String → Bool
  | [], _ => false
  | kv :: rest, k => kv.1 == k || mapHas rest k

/-- `Map.prototype.get` (as `Option`). -/
def mapGet {α : Type} : AssocMap α → String → Option α
  | [], _ => none
  | kv :: rest, k => if kv.1 == k then some kv.2 else mapGet rest k

/-- `Map.prototype.set`: replace in place if present, append otherwise. -/
def mapSet {α : Type} : AssocMap α → String → α → AssocMap α
  | [], k, v => [(k, v)]
  | kv :: rest, k, v => if kv.1 == k then (k, v) :: rest else kv :: mapSet rest k v

/-- `Map.prototype.keys` (iteration order). -/
def mapKeys {α : Type} (m : AssocMap α) : List String := m.map Prod.fst

/-- `Set.prototype.add` on an insertion-ordered set of strings. -/
def setAdd (s : List String) (x : String) : List String :=
  if x ∈ s then s else s ++ [x]

/-- `arraysEqual`: same length and element-wise string equality. -/
def arraysEqual (a b : List String) : Bool :=
  a.length == b.length && (List.zip a b).all fun ab => ab.1 == ab.2

/-- Outcome of one page request after transport: a successful response
carries the optional `performers` and `data` arrays of the parsed JSON
body; the two failure shapes are a non-success HTTP status and a body
that fails to parse as JSON. -/
inductive PageResponse where
  | ok (performersField : Option (List Performer)) (dataField : Option (List Performer))
  | httpError (status : Nat)
  | badJson
deriving DecidableEq

/-- `fetchPage` after the transport boundary: the record list handed back
to the caller together with whether a warning was logged.  A non-success
status or a parse failure is logged and yields `[]`; a success takes the
`performers` array, else the `data` array, else `[]` (no warning). -/
def fetchPage : PageResponse → List Performer × Bool
  | .ok pf df =>
    ((match pf with
      | some arr => arr
      | none =>
        (match df with
         | some arr => arr
         | none => [])), false)
  | .httpError _ => ([], true)
  | .badJson => ([], true)

/-- The record list a page request contributes. -/
def fetchRecords (r : PageResponse) : List Performer := (fetchPage r).1

/-- Whether the page request logged a warning. -/
def fetchWarns (r : PageResponse) : Bool := (fetchPage r).2

/-- The inner `for (const p of arr)` of the fetch loop: de-duplicate
against the global `seen` set, skip empty identifiers, push fresh
records, break once the brand quota `want` is reached. -/
def innerScan (want : Nat) : List Performer → List String → List Performer → List String × List Performer
  | [], seen, acc => (seen, acc)
  | p :: rest, seen, acc =>
    let i := idFor p
    if i = "" then innerScan want rest seen acc
    else if i ∈ seen then innerScan want rest seen acc
    else
      let seen2 := setAdd seen i
      let acc2 := acc ++ [p]
      if want ≤ acc2.length then (seen2, acc2) else innerScan want rest seen2 acc2

/-- The per-brand `while` loop: request successive pages starting at
`page`, stop when the quota is met, a page comes back empty, or the page
counter passes the 250-page safety cap.  Returns the `seen` set, the
accumulated records, and the page counter at the stop.  `fuel` is the
Lean termination device; every call supplies `fuel = 251` with
`page = 1`, and the 250-page cap fires strictly before the fuel can run
out (`brandLoop_stop` below never reaches the fuel-zero branch). -/
def brandLoop (fetch : Nat → List Performer) (want : Nat) : Nat → List String → List Performer → Nat → List String × List Performer × Nat
  | page, seen, acc, 0 => (seen, acc, page)
  | page, seen, acc, fuel + 1 =>
    if acc.length < want then
      let arr := fetch page
      if arr = [] then (seen, acc, page)
      else
        let st := innerScan want arr seen acc
        let page2 := page + 1
        if 250 < page2 then (st.1, st.2, page2)
        else brandLoop fetch want page2 st.1 st.2 fuel
    else (seen, acc, page)

/-- Per-brand quotas: `base = ⌊max / N⌋` plus one extra for the first
`max mod N` brands, keyed by brand in list order. -/
def quotaMap (brandList : List String) (max : Nat) : AssocMap Nat :=
  let base := max / brandList.length
  let extra := max % brandList.length
  brandList.enum.foldl (fun m ib => mapSet m ib.2 (base + if ib.1 < extra then 1 else 0)) []

/-- The outer `for (const brand of brandList)` fetch: thread the global
`seen` set, run the paged loop for every brand with positive quota, and
record each brand's accumulated records in `freshByBrand`. -/
def fetchBrands (responses : String → Nat → PageResponse) (quota : AssocMap Nat) :
    List String → List String → AssocMap (List Performer) → List String × AssocMap (List Performer)
  | [], seen, fbb => (seen, fbb)
  | b :: rest, seen, fbb =>
    let want := (mapGet quota b).getD 0
    if want = 0 then fetchBrands responses quota rest seen fbb
    else
      let st := brandLoop (fun pg => fetchRecords (responses b pg)) want 1 seen ((mapGet fbb b).getD []) 251
      fetchBrands responses quota rest st.1 (mapSet fbb b st.2.1)

/-- The flattened `fresh` list: each brand's fetched records in brand-list
order. -/
def freshOf (responses : String → Nat → PageResponse) (brandList : List String) (max : Nat) : List Performer :=
  let quota := quotaMap brandList max
  let fbb0 := brandList.foldl (fun m b => mapSet m b ([] : List Performer)) []
  let fbb := (fetchBrands responses quota brandList [] fbb0).2
  brandList.flatMap fun b => (mapGet fbb b).getD []

/-- Loading `performers.json` into `prevMap`: first occurrence of each
non-empty identifier wins. -/
def buildPrevMap : List Performer → AssocMap Performer → AssocMap Performer
  | [], m => m
  | p :: rest, m =>
    let i := idFor p
    if i ≠ "" ∧ mapHas m i = false then buildPrevMap rest (mapSet m i p)
    else buildPrevMap rest m

/-- Merge previous table and fresh records, fresh wins. -/
def mergeFresh : AssocMap Performer → List Performer → AssocMap Performer
  | m, [] => m
  | m, p :: rest =>
    let i := idFor p
    if i = "" then mergeFresh m rest else mergeFresh (mapSet m i p) rest

/-- Catalog assembly, step 1 (only without reseed): walk the previous
catalog order, keep identifiers still present in the merged table, break
once `max` entries are collected.  State is `(outIds, used)`. -/
def phase1 (merged : AssocMap Performer) (max : Nat) : List String → List String → List String → List String × List String
  | [], out, used => (out, used)
  | i :: rest, out, used =>
    if mapHas merged i = false then phase1 merged max rest out used
    else if i ∈ used then phase1 merged max rest out used
    else
      let out2 := out ++ [i]
      let used2 := setAdd used i
      if max ≤ out2.length then (out2, used2)
      else phase1 merged max rest out2 used2

/-- Catalog assembly, step 2: fill from the fresh records in balanced
brand order. -/
def phase2 (max : Nat) : List Performer → List String → List String → List String × List String
  | [], out, used => (out, used)
  | p :: rest, out, used =>
    if max ≤ out.length then (out, used)
    else
      let i := idFor p
      if i = "" then phase2 max rest out used
      else if i ∈ used then phase2 max rest out used
      else phase2 max rest (out ++ [i]) (setAdd used i)

/-- Catalog assembly, step 3: if still short, fill from the merged table
keys in map iteration order. -/
def phase3 (max : Nat) : List String → List String → List String → List String × List String
  | [], out, used => (out, used)
  | k :: rest, out, used =>
    if max ≤ out.length then (out, used)
    else if k ∈ used then phase3 max rest out used
    else phase3 max rest (out ++ [k]) (setAdd used k)

/-- The stable catalog identifier list produced by the three assembly
steps. -/
def buildOutIds (needReseed : Bool) (prevIds : List String) (fresh : List Performer)
    (merged : AssocMap Performer) (max : Nat) : List String :=
  let st1 := if needReseed then (([] : List String), ([] : List String))
             else phase1 merged max prevIds [] []
  let st2 := phase2 max fresh st1.1 st1.2
  let st3 := if st2.1.length < max then phase3 max (mapKeys merged) st2.1 st2.2 else st2
  st3.1

/-- The fields of a previously persisted `catalog.json` that the script
reads: the identifier list and the recorded brand list.  A legacy plain
array catalog is `⟨ids, []⟩`; a missing or unparseable file is `none`
at the use sites. -/
structure CatalogFile where
  ids : List String := []
  brands : List String := []
deriving DecidableEq, Repr

/-- `prevIds` after `map(String).filter(Boolean)`. -/
def extractPrevIds : Option CatalogFile → List String
  | none => []
  | some c => c.ids.filter fun s => s != ""

/-- `prevBrands` after `map(normalizeBrand).filter(Boolean)`. -/
def extractPrevBrands : Option CatalogFile → List String
  | none => []
  | some c => (c.brands.map normalizeBrand).filter fun s => s != ""

/-- `brandsChanged`: a non-empty recorded brand list whose comma-joined
form differs from the requested one. -/
def brandsChangedB (prevBrands brandList : List String) : Bool :=
  !prevBrands.isEmpty && (String.intercalate (",") prevBrands != String.intercalate (",") brandList)

/-- `needReseed = reseed || !prevIds.length || brandsChanged`. -/
def needReseedB (reseed : Bool) (prevIds prevBrands brandList : List String) : Bool :=
  reseed || prevIds.isEmpty || brandsChangedB prevBrands brandList

/-- Specification-side description of step 1: the identifiers of `l`
(first occurrences) that are present in `merged` and not yet in `used`,
in the order of `l`. -/
def keepAlive (merged : AssocMap Performer) : List String → List String → List String
  | _, [] => []
  | used, i :: rest =>
    if mapHas merged i = true ∧ i ∉ used then i :: keepAlive merged (used ++ [i]) rest
    else keepAlive merged used rest

/-- Observable outcome of one reconciliation run: the reseed decision and
warning, the fetched `fresh` list, the merged table, the catalog
identifier list, the written performer table and its `count` field, and
whether the catalog artifact was (re)written together with its contents
(`generatedAt` timestamps are outside the model). -/
structure RunResult where
  needReseed : Bool
  warned : Bool
  fresh : List Performer
  merged : AssocMap Performer
  outIds : List String
  outPerformers : List Performer
  perfBrands : List String
  perfCount : Nat
  catWritten : Bool
  catIds : List String
  catBrands : List String
  catMax : Nat
  catCount : Nat
deriving Repr

/-- One reconciliation run of `main` after configuration resolution:
`max` is the clamped maximum (the script forces `max ≥ 1`), `brandList`
the resolved brand list, `responses` the upstream oracle, `prevPerf` the
`performers` array of the previous table artifact (empty when the file
is missing), `prevCat` the previous catalog artifact. -/
def runSync (reseed : Bool) (max : Nat) (brandList : List String)
    (responses : String → Nat → PageResponse)
    (prevPerf : List Performer) (prevCat : Option CatalogFile) : RunResult :=
  let prevMap := buildPrevMap prevPerf []
  let prevIds := extractPrevIds prevCat
  let prevBrands := extractPrevBrands prevCat
  let changed := brandsChangedB prevBrands brandList
  let needReseed := needReseedB reseed prevIds prevBrands brandList
  let warned := changed && !reseed
  let fresh := freshOf responses brandList max
  let merged := mergeFresh prevMap fresh
  let outIds := buildOutIds needReseed prevIds fresh merged max
  let outPerformers := outIds.filterMap fun i => mapGet merged i
  let idsChanged := !arraysEqual (prevIds.take max) outIds
  let catWritten := needReseed || idsChanged || prevCat.isNone
  { needReseed := needReseed
    warned := warned
    fresh := fresh
    merged := merged
    outIds := outIds
    outPerformers := outPerformers
    perfBrands := brandList
    perfCount := outPerformers.length
    catWritten := catWritten
    catIds := outIds
    catBrands := brandList
    catMax := max
    catCount := outIds.length }

/-- State of the catalog artifact after a run: rewritten contents if the
run wrote it, the untouched previous file otherwise. -/
def nextPrevCat (r : RunResult) (prevCat : Option CatalogFile) : Option CatalogFile :=
  if r.catWritten then some { ids := r.catIds, brands := r.catBrands } else prevCat

/-- Concrete records and upstream oracles for the scenario theorems. -/
def recOne : Performer := { itemId := "1" }

def recTwo : Performer := { itemId := "2" }

def recThree : Performer := { itemId := "3" }

def recFour : Performer := { itemId := "4" }

/-- An upstream that always answers with an empty successful page. -/
def respEmpty : String → Nat → PageResponse := fun _ _ => .ok none none

/-- An upstream whose first page holds only the record with identifier
`"4"` and whose later pages are empty. -/
def respOnlyFour : String → Nat → PageResponse :=
  fun _ pg => if pg = 1 then .ok (some [recFour]) none else .ok (some []) none


/-! ### Basic facts about the map and set embeddings -/

theorem setAdd_of_not_mem {s : List String} {x : String} (h : x ∉ s) :
    setAdd s x = s ++ [x] := by
  simp [setAdd, h]

theorem mapHas_iff_mem_keys {α : Type} (m : AssocMap α) (k : String) :
    mapHas m k = true ↔ k ∈ mapKeys m := by
  induction m with
  | nil => simp [mapHas, mapKeys]
  | cons kv rest ih =>
    simp only [mapHas, Bool.or_eq_true, beq_iff_eq, mapKeys, List.map_cons, List.mem_cons] at *
    rw [ih]
    exact or_congr eq_comm Iff.rfl

theorem mapHas_exists_get {α : Type} {m : AssocMap α} {k : String}
    (h : mapHas m k = true) : ∃ v, mapGet m k = some v := by
  induction m with
  | nil => simp [mapHas] at h
  | cons kv rest ih =>
    simp only [mapHas, Bool.or_eq_true, beq_iff_eq] at h
    by_cases hk : kv.1 = k
    · exact ⟨kv.2, by simp [mapGet, hk]⟩
    · rcases h with h | h
      · exact absurd h hk
      · rcases ih h with ⟨v, hv⟩
        exact ⟨v, by simp [mapGet, hk, hv]⟩

theorem mapGet_some_has {α : Type} {m : AssocMap α} {k : String} {v : α}
    (h : mapGet m k = some v) : mapHas m k = true := by
  induction m with
  | nil => simp [mapGet] at h
  | cons kv rest ih =>
    by_cases hk : kv.1 = k
    · simp [mapHas, hk]
    · simp only [mapGet, beq_iff_eq, hk, if_false] at h
      simp [mapHas, ih h]

theorem mapGet_some_mem {α : Type} {m : AssocMap α} {k : String} {v : α}
    (h : mapGet m k = some v) : ∃ kv, kv ∈ m ∧ kv.2 = v := by
  induction m with
  | nil => simp [mapGet] at h
  | cons kv rest ih =>
    by_cases hk : kv.1 = k
    · simp only [mapGet, beq_iff_eq, hk, if_true] at h
      refine ⟨kv, by simp, ?_⟩
      simpa using congrArg (fun o => o.getD kv.2) h
    · simp only [mapGet, beq_iff_eq, hk, if_false] at h
      rcases ih h with ⟨kv', hmem, hval⟩
      exact ⟨kv', by simp [hmem], hval⟩

theorem mapGet_mapSet_self {α : Type} (m : AssocMap α) (k : String) (v : α) :
    mapGet (mapSet m k v) k = some v := by
  induction m with
  | nil => simp [mapSet, mapGet]
  | cons kv rest ih =>
    by_cases hk : kv.1 = k
    · simp [mapSet, mapGet, hk]
    · simp [mapSet, mapGet, hk, ih]

theorem mapGet_mapSet_ne {α : Type} (m : AssocMap α) {k k' : String} (v : α)
    (h : k' ≠ k) : mapGet (mapSet m k v) k' = mapGet m k' := by
  have hne : (k == k') = false := by
    simp only [beq_eq_false_iff_ne]
    exact fun hh => h hh.symm
  induction m with
  | nil => simp [mapSet, mapGet, hne]
  | cons kv rest ih =>
    by_cases hk : kv.1 = k
    · simp [mapSet, mapGet, hk, hne]
    · by_cases hk' : kv.1 = k'
      · simp [mapSet, mapGet, hk, hk', h]
      · simp [mapSet, mapGet, hk, hk', ih]

theorem mem_keys_mapSet {α : Type} (m : AssocMap α) (k k' : String) (v : α) :
    k' ∈ mapKeys (mapSet m k v) ↔ k' ∈ mapKeys m ∨ k' = k := by
  induction m with
  | nil => simp [mapSet, mapKeys]
  | cons kv rest ih =>
    by_cases hk : kv.1 = k
    · simp only [mapSet, beq_iff_eq, hk, if_true]
      simp only [mapKeys, List.map_cons, List.mem_cons] at *
      constructor
      · rintro (h | h)
        · exact Or.inr h
        · exact Or.inl (Or.inr h)
      · rintro ((h | h) | h)
        · exact Or.inl (h.trans hk)
        · exact Or.inr h
        · exact Or.inl h
    · simp only [mapSet, beq_iff_eq, hk, if_false]
      simp only [mapKeys, List.map_cons, List.mem_cons] at *
      rw [ih]
      tauto

theorem mapSet_of_not_has {α : Type} {m : AssocMap α} {k : String} (v : α)
    (h : mapHas m k = false) : mapSet m k v = m ++ [(k, v)] := by
  induction m with
  | nil => simp [mapSet]
  | cons kv rest ih =>
    simp only [mapHas, Bool.or_eq_false_iff, beq_eq_false_iff_ne] at h
    simp [mapSet, h.1, ih h.2]

theorem mapSet_forall {α : Type} {Q : String × α → Prop} {m : AssocMap α} {k : String} {v : α}
    (hm : ∀ kv ∈ m, Q kv) (hv : Q (k, v)) : ∀ kv ∈ mapSet m k v, Q kv := by
  induction m with
  | nil =>
    intro kv hkv
    simp only [mapSet, List.mem_singleton] at hkv
    simpa [hkv]
  | cons kv rest ih =>
    intro kv' hkv'
    by_cases hk : kv.1 = k
    · simp only [mapSet, beq_iff_eq, hk, if_true, List.mem_cons] at hkv'
      rcases hkv' with h | h
      · simpa [h]
      · exact hm _ (by simp [h])
    · simp only [mapSet, beq_iff_eq, hk, if_false, List.mem_cons] at hkv'
      rcases hkv' with h | h
      · exact hm _ (by simp [h])
      · exact ih (fun kv hkv => hm kv (by simp [hkv])) _ h

theorem arraysEqual_iff (a b : List String) : arraysEqual a b = true ↔ a = b := by
  induction a generalizing b with
  | nil => cases b <;> simp [arraysEqual]
  | cons x xs ih =>
    cases b with
    | nil => simp [arraysEqual]
    | cons y ys =>
      simp only [arraysEqual, Bool.and_eq_true, beq_iff_eq, List.zip_cons_cons, List.all_cons,
        List.length_cons] at *
      constructor
      · rintro ⟨hlen, hy, hall⟩
        have := (ih ys).mp ⟨by simpa using hlen, hall⟩
        simp [hy, this]
      · intro h
        cases h
        have h2 := (ih xs).mpr rfl
        simp only [arraysEqual, Bool.and_eq_true] at h2
        exact ⟨rfl, rfl, h2.2⟩

/-! ### Invariants of the performer tables -/

/-- Every value of a table is stored under its own identifier. -/
def KeyedBy (m : AssocMap Performer) : Prop :=
  ∀ k v, mapGet m k = some v → idFor v = k

/-- Every key of a table is a non-empty string. -/
def KeysNE (m : AssocMap Performer) : Prop :=
  ∀ k ∈ mapKeys m, k ≠ ""

theorem keyedBy_nil : KeyedBy [] := by
  intro k v h
  simp [mapGet] at h

theorem keysNE_nil : KeysNE [] := by
  intro k h
  simp [mapKeys] at h

theorem keyedBy_mapSet {m : AssocMap Performer} {k : String} {v : Performer}
    (hm : KeyedBy m) (hv : idFor v = k) : KeyedBy (mapSet m k v) := by
  intro k' v' h
  by_cases hk : k' = k
  · subst hk
    rw [mapGet_mapSet_self] at h
    cases h
    exact hv
  · rw [mapGet_mapSet_ne m v hk] at h
    exact hm k' v' h

theorem keysNE_mapSet {m : AssocMap Performer} {k : String} {v : Performer}
    (hm : KeysNE m) (hk : k ≠ "") : KeysNE (mapSet m k v) := by
  intro k' h
  rcases (mem_keys_mapSet m k k' v).mp h with h | h
  · exact hm k' h
  · simpa [h]

theorem mapHas_mapSet_mono {α : Type} {m : AssocMap α} {k k' : String} {v : α}
    (h : mapHas m k' = true) : mapHas (mapSet m k v) k' = true := by
  rw [mapHas_iff_mem_keys] at *
  exact (mem_keys_mapSet m k k' v).mpr (Or.inl h)

theorem mapHas_mapSet_self {α : Type} (m : AssocMap α) (k : String) (v : α) :
    mapHas (mapSet m k v) k = true :=
  mapGet_some_has (mapGet_mapSet_self m k v)

theorem keyedBy_buildPrevMap (ps : List Performer) (m : AssocMap Performer)
    (hm : KeyedBy m) : KeyedBy (buildPrevMap ps m) := by
  induction ps generalizing m with
  | nil => simpa [buildPrevMap]
  | cons p rest ih =>
    simp only [buildPrevMap]
    by_cases hc : idFor p ≠ "" ∧ mapHas m (idFor p) = false
    · simpa [hc] using ih _ (keyedBy_mapSet hm rfl)
    · simpa [hc] using ih _ hm

theorem keysNE_buildPrevMap (ps : List Performer) (m : AssocMap Performer)
    (hm : KeysNE m) : KeysNE (buildPrevMap ps m) := by
  induction ps generalizing m with
  | nil => simpa [buildPrevMap]
  | cons p rest ih =>
    simp only [buildPrevMap]
    by_cases hc : idFor p ≠ "" ∧ mapHas m (idFor p) = false
    · simpa [hc] using ih _ (keysNE_mapSet hm hc.1)
    · simpa [hc] using ih _ hm

theorem keyedBy_mergeFresh (l : List Performer) (m : AssocMap Performer)
    (hm : KeyedBy m) : KeyedBy (mergeFresh m l) := by
  induction l generalizing m with
  | nil => simpa [mergeFresh]
  | cons p rest ih =>
    simp only [mergeFresh]
    by_cases hp : idFor p = ""
    · simpa [hp] using ih _ hm
    · simpa [hp] using ih _ (keyedBy_mapSet hm rfl)

theorem keysNE_mergeFresh (l : List Performer) (m : AssocMap Performer)
    (hm : KeysNE m) : KeysNE (mergeFresh m l) := by
  induction l generalizing m with
  | nil => simpa [mergeFresh]
  | cons p rest ih =>
    simp only [mergeFresh]
    by_cases hp : idFor p = ""
    · simpa [hp] using ih _ hm
    · simpa [hp] using ih _ (keysNE_mapSet hm hp)

theorem mergeFresh_has_mono {m : AssocMap Performer} {k : String} (l : List Performer)
    (h : mapHas m k = true) : mapHas (mergeFresh m l) k = true := by
  induction l generalizing m with
  | nil => simpa [mergeFresh]
  | cons p rest ih =>
    simp only [mergeFresh]
    by_cases hp : idFor p = ""
    · simpa [hp] using ih h
    · simpa [hp] using ih (mapHas_mapSet_mono h)

theorem mergeFresh_has_of_mem {m : AssocMap Performer} {l : List Performer} {p : Performer}
    (hp : p ∈ l) (hne : idFor p ≠ "") : mapHas (mergeFresh m l) (idFor p) = true := by
  induction l generalizing m with
  | nil => simp at hp
  | cons q rest ih =>
    simp only [mergeFresh]
    rcases List.mem_cons.mp hp with h | h
    · subst h
      simp only [hne, if_neg (by simpa using hne)]
      exact mergeFresh_has_mono rest (mapHas_mapSet_self m (idFor p) p)
    · by_cases hq : idFor q = ""
      · simpa [hq] using ih h
      · simpa [hq] using ih h

theorem mergeFresh_has_sub {m : AssocMap Performer} {l : List Performer} {k : String}
    (h : mapHas (mergeFresh m l) k = true) :
    mapHas m k = true ∨ ∃ p ∈ l, idFor p = k := by
  induction l generalizing m with
  | nil =>
    simp only [mergeFresh] at h
    exact Or.inl h
  | cons q rest ih =>
    simp only [mergeFresh] at h
    by_cases hq : idFor q = ""
    · rw [if_pos hq] at h
      rcases ih h with h' | ⟨p, hp, hid⟩
      · exact Or.inl h'
      · exact Or.inr ⟨p, by simp [hp], hid⟩
    · rw [if_neg hq] at h
      rcases ih h with h' | ⟨p, hp, hid⟩
      · rw [mapHas_iff_mem_keys] at h'
        rcases (mem_keys_mapSet m (idFor q) k q).mp h' with h'' | h''
        · exact Or.inl ((mapHas_iff_mem_keys m k).mpr h'')
        · exact Or.inr ⟨q, by simp, h''.symm⟩
      · exact Or.inr ⟨p, by simp [hp], hid⟩

theorem buildPrevMap_has_mono {m : AssocMap Performer} {k : String} (ps : List Performer)
    (h : mapHas m k = true) : mapHas (buildPrevMap ps m) k = true := by
  induction ps generalizing m with
  | nil => simpa [buildPrevMap]
  | cons p rest ih =>
    simp only [buildPrevMap]
    by_cases hc : idFor p ≠ "" ∧ mapHas m (idFor p) = false
    · simpa [hc] using ih (mapHas_mapSet_mono h)
    · simpa [hc] using ih h

theorem buildPrevMap_has_of {m : AssocMap Performer} {ps : List Performer} {k : String}
    (hex : ∃ p ∈ ps, idFor p = k) (hne : k ≠ "") :
    mapHas (buildPrevMap ps m) k = true := by
  induction ps generalizing m with
  | nil => simp at hex
  | cons q rest ih =>
    rcases hex with ⟨p, hp, hid⟩
    simp only [buildPrevMap]
    rcases List.mem_cons.mp hp with h | h
    · subst h
      by_cases hc : idFor p ≠ "" ∧ mapHas m (idFor p) = false
      · rw [if_pos hc]
        exact buildPrevMap_has_mono rest (by rw [← hid]; exact mapHas_mapSet_self m (idFor p) p)
      · rw [if_neg hc]
        push_neg at hc
        have h2 := hc (by rw [hid]; exact hne)
        rw [Ne, Bool.not_eq_false] at h2
        exact buildPrevMap_has_mono rest (by rw [← hid]; exact h2)
    · by_cases hc : idFor q ≠ "" ∧ mapHas m (idFor q) = false
      · rw [if_pos hc]
        exact ih ⟨p, h, hid⟩
      · rw [if_neg hc]
        exact ih ⟨p, h, hid⟩

theorem buildPrevMap_has_sub {m : AssocMap Performer} {ps : List Performer} {k : String}
    (h : mapHas (buildPrevMap ps m) k = true) :
    mapHas m k = true ∨ ∃ p ∈ ps, idFor p = k := by
  induction ps generalizing m with
  | nil =>
    simp only [buildPrevMap] at h
    exact Or.inl h
  | cons q rest ih =>
    simp only [buildPrevMap] at h
    by_cases hc : idFor q ≠ "" ∧ mapHas m (idFor q) = false
    · rw [if_pos hc] at h
      rcases ih h with h' | ⟨p, hp, hid⟩
      · rw [mapHas_iff_mem_keys] at h'
        rcases (mem_keys_mapSet m (idFor q) k q).mp h' with h'' | h''
        · exact Or.inl ((mapHas_iff_mem_keys m k).mpr h'')
        · exact Or.inr ⟨q, by simp, h''.symm⟩
      · exact Or.inr ⟨p, by simp [hp], hid⟩
    · rw [if_neg hc] at h
      rcases ih h with h' | ⟨p, hp, hid⟩
      · exact Or.inl h'
      · exact Or.inr ⟨p, by simp [hp], hid⟩

/-! ### The three catalog assembly steps -/

theorem phase1_extend (merged : AssocMap Performer) (max : Nat) (l : List String) :
    ∀ out used : List String, ∃ r, phase1 merged max l out used = (out ++ r, used ++ r) ∧
      ∀ i ∈ r, i ∉ used ∧ i ∈ l ∧ mapHas merged i = true := by
  induction l with
  | nil =>
    intro out used
    exact ⟨[], by simp [phase1], by simp⟩
  | cons a rest ih =>
    intro out used
    cases hmem : mapHas merged a with
    | false =>
      rcases ih out used with ⟨r, hr, hprop⟩
      refine ⟨r, by simpa [phase1, hmem] using hr, ?_⟩
      intro i hi
      obtain ⟨h2, h3, h4⟩ := hprop i hi
      exact ⟨h2, by simp [h3], h4⟩
    | true =>
      by_cases hu : a ∈ used
      · rcases ih out used with ⟨r, hr, hprop⟩
        refine ⟨r, by simpa [phase1, hmem, hu] using hr, ?_⟩
        intro i hi
        obtain ⟨h2, h3, h4⟩ := hprop i hi
        exact ⟨h2, by simp [h3], h4⟩
      · by_cases hbreak : max ≤ (out ++ [a]).length
        · refine ⟨[a], ?_, ?_⟩
          · simp only [phase1]
            rw [if_neg (by simp [hmem]), if_neg hu, setAdd_of_not_mem hu, if_pos hbreak]
          · intro i hi
            simp only [List.mem_singleton] at hi
            subst hi
            exact ⟨hu, by simp, hmem⟩
        · rcases ih (out ++ [a]) (used ++ [a]) with ⟨r, hr, hprop⟩
          refine ⟨a :: r, ?_, ?_⟩
          · simp only [phase1]
            rw [if_neg (by simp [hmem]), if_neg hu, setAdd_of_not_mem hu, if_neg hbreak, hr]
            simp
          · intro i hi
            rcases List.mem_cons.mp hi with h | h
            · subst h
              exact ⟨hu, by simp, hmem⟩
            · obtain ⟨h2, h3, h4⟩ := hprop i h
              simp only [List.mem_append, List.mem_singleton] at h2
              push_neg at h2
              exact ⟨h2.1, by simp [h3], h4⟩

theorem phase2_extend (max : Nat) (l : List Performer) :
    ∀ out used : List String, ∃ r, phase2 max l out used = (out ++ r, used ++ r) ∧
      ∀ i ∈ r, i ∉ used ∧ i ≠ "" ∧ ∃ p ∈ l, idFor p = i := by
  induction l with
  | nil =>
    intro out used
    exact ⟨[], by simp [phase2], by simp⟩
  | cons p rest ih =>
    intro out used
    by_cases hfull : max ≤ out.length
    · exact ⟨[], by simp [phase2, hfull], by simp⟩
    · by_cases hempty : idFor p = ""
      · rcases ih out used with ⟨r, hr, hprop⟩
        refine ⟨r, by simpa [phase2, hfull, hempty] using hr, ?_⟩
        intro i hi
        obtain ⟨h2, h3, p', hp', h4⟩ := hprop i hi
        exact ⟨h2, h3, p', by simp [hp'], h4⟩
      · by_cases hu : idFor p ∈ used
        · rcases ih out used with ⟨r, hr, hprop⟩
          refine ⟨r, by simpa [phase2, hfull, hempty, hu] using hr, ?_⟩
          intro i hi
          obtain ⟨h2, h3, p', hp', h4⟩ := hprop i hi
          exact ⟨h2, h3, p', by simp [hp'], h4⟩
        · rcases ih (out ++ [idFor p]) (used ++ [idFor p]) with ⟨r, hr, hprop⟩
          refine ⟨idFor p :: r, ?_, ?_⟩
          · simp only [phase2, if_neg hfull, hempty, if_neg hempty, hu, if_neg hu,
              setAdd_of_not_mem hu]
            rw [hr]
            simp
          · intro i hi
            rcases List.mem_cons.mp hi with h | h
            · subst h
              exact ⟨hu, hempty, p, by simp, rfl⟩
            · obtain ⟨h2, h3, p', hp', h4⟩ := hprop i h
              simp only [List.mem_append, List.mem_singleton] at h2
              push_neg at h2
              exact ⟨h2.1, h3, p', by simp [hp'], h4⟩

theorem phase3_extend (max : Nat) (l : List String) :
    ∀ out used : List String, ∃ r, phase3 max l out used = (out ++ r, used ++ r) ∧
      ∀ i ∈ r, i ∉ used ∧ i ∈ l := by
  induction l with
  | nil =>
    intro out used
    exact ⟨[], by simp [phase3], by simp⟩
  | cons a rest ih =>
    intro out used
    by_cases hfull : max ≤ out.length
    · exact ⟨[], by simp [phase3, hfull], by simp⟩
    · by_cases hu : a ∈ used
      · rcases ih out used with ⟨r, hr, hprop⟩
        refine ⟨r, by simpa [phase3, hfull, hu] using hr, ?_⟩
        intro i hi
        obtain ⟨h2, h3⟩ := hprop i hi
        exact ⟨h2, by simp [h3]⟩
      · rcases ih (out ++ [a]) (used ++ [a]) with ⟨r, hr, hprop⟩
        refine ⟨a :: r, ?_, ?_⟩
        · simp only [phase3, if_neg hfull, hu, if_neg hu, setAdd_of_not_mem hu]
          rw [hr]
          simp
        · intro i hi
          rcases List.mem_cons.mp hi with h | h
          · subst h
            exact ⟨hu, by simp⟩
          · obtain ⟨h2, h3⟩ := hprop i h
            simp only [List.mem_append, List.mem_singleton] at h2
            push_neg at h2
            exact ⟨h2.1, by simp [h3]⟩

theorem phase1_pair (merged : AssocMap Performer) (max : Nat) (l s : List String) :
    phase1 merged max l s s = ((phase1 merged max l s s).1, (phase1 merged max l s s).1) := by
  obtain ⟨r, hr, -⟩ := phase1_extend merged max l s s
  rw [hr]

theorem phase2_pair (max : Nat) (l : List Performer) (s : List String) :
    phase2 max l s s = ((phase2 max l s s).1, (phase2 max l s s).1) := by
  obtain ⟨r, hr, -⟩ := phase2_extend max l s s
  rw [hr]

theorem phase1_good (merged : AssocMap Performer) (max : Nat) (l : List String) :
    ∀ out : List String, out.Nodup → out.length < max →
      ((phase1 merged max l out out).1.Nodup ∧ (phase1 merged max l out out).1.length ≤ max) := by
  induction l with
  | nil =>
    intro out hnd hlt
    exact ⟨by simpa [phase1] using hnd, by simp [phase1]; omega⟩
  | cons a rest ih =>
    intro out hnd hlt
    cases hmem : mapHas merged a with
    | false =>
      simpa [phase1, hmem] using ih out hnd hlt
    | true =>
      by_cases hu : a ∈ out
      · simpa [phase1, hmem, hu] using ih out hnd hlt
      · have hnd2 : (out ++ [a]).Nodup := by
          simp [List.nodup_append, hnd, hu]
        by_cases hbreak : max ≤ (out ++ [a]).length
        · simp only [phase1]
          rw [if_neg (by simp [hmem]), if_neg hu, setAdd_of_not_mem hu, if_pos hbreak]
          refine ⟨hnd2, ?_⟩
          simp only [List.length_append, List.length_singleton]
          omega
        · have hlt2 : (out ++ [a]).length < max := by
            simp only [List.length_append, List.length_singleton] at *
            omega
          simp only [phase1]
          rw [if_neg (by simp [hmem]), if_neg hu, setAdd_of_not_mem hu, if_neg hbreak]
          exact ih (out ++ [a]) hnd2 hlt2

theorem phase2_good (max : Nat) (l : List Performer) :
    ∀ out : List String, out.Nodup → out.length ≤ max →
      ((phase2 max l out out).1.Nodup ∧ (phase2 max l out out).1.length ≤ max) := by
  induction l with
  | nil =>
    intro out hnd hle
    exact ⟨by simpa [phase2] using hnd, by simpa [phase2] using hle⟩
  | cons p rest ih =>
    intro out hnd hle
    by_cases hfull : max ≤ out.length
    · simp only [phase2]
      rw [if_pos hfull]
      exact ⟨hnd, hle⟩
    · by_cases hempty : idFor p = ""
      · simpa [phase2, hfull, hempty] using ih out hnd hle
      · by_cases hu : idFor p ∈ out
        · simpa [phase2, hfull, hempty, hu] using ih out hnd hle
        · have hnd2 : (out ++ [idFor p]).Nodup := by
            simp [List.nodup_append, hnd, hu]
          have hle2 : (out ++ [idFor p]).length ≤ max := by
            simp only [List.length_append, List.length_singleton]
            omega
          simp only [phase2]
          rw [if_neg hfull, if_neg hempty, if_neg hu, setAdd_of_not_mem hu]
          exact ih (out ++ [idFor p]) hnd2 hle2

theorem phase3_good (max : Nat) (l : List String) :
    ∀ out : List String, out.Nodup → out.length ≤ max →
      ((phase3 max l out out).1.Nodup ∧ (phase3 max l out out).1.length ≤ max) := by
  induction l with
  | nil =>
    intro out hnd hle
    exact ⟨by simpa [phase3] using hnd, by simpa [phase3] using hle⟩
  | cons a rest ih =>
    intro out hnd hle
    by_cases hfull : max ≤ out.length
    · simp only [phase3]
      rw [if_pos hfull]
      exact ⟨hnd, hle⟩
    · by_cases hu : a ∈ out
      · simpa [phase3, hfull, hu] using ih out hnd hle
      · have hnd2 : (out ++ [a]).Nodup := by
          simp [List.nodup_append, hnd, hu]
        have hle2 : (out ++ [a]).length ≤ max := by
          simp only [List.length_append, List.length_singleton]
          omega
        simp only [phase3]
        rw [if_neg hfull, if_neg hu, setAdd_of_not_mem hu]
        exact ih (out ++ [a]) hnd2 hle2

theorem phase2_stop {max : Nat} (l : List Performer) {out used : List String}
    (h : max ≤ out.length) : phase2 max l out used = (out, used) := by
  cases l with
  | nil => simp [phase2]
  | cons p rest =>
    simp only [phase2]
    rw [if_pos h]

theorem phase3_stop {max : Nat} (l : List String) {out used : List String}
    (h : max ≤ out.length) : phase3 max l out used = (out, used) := by
  cases l with
  | nil => simp [phase3]
  | cons a rest =>
    simp only [phase3]
    rw [if_pos h]

theorem phase2_noop {max : Nat} {l : List Performer} {out used : List String}
    (h : ∀ p ∈ l, idFor p = "" ∨ idFor p ∈ used) : phase2 max l out used = (out, used) := by
  induction l with
  | nil => simp [phase2]
  | cons p rest ih =>
    by_cases hfull : max ≤ out.length
    · simp only [phase2]
      rw [if_pos hfull]
    · rcases h p (by simp) with hp | hp
      · simp only [phase2]
        rw [if_neg hfull, if_pos hp]
        exact ih fun q hq => h q (by simp [hq])
      · by_cases hempty : idFor p = ""
        · simp only [phase2]
          rw [if_neg hfull, if_pos hempty]
          exact ih fun q hq => h q (by simp [hq])
        · simp only [phase2]
          rw [if_neg hfull, if_neg hempty, if_pos hp]
          exact ih fun q hq => h q (by simp [hq])

theorem phase3_noop {max : Nat} {l : List String} {out used : List String}
    (h : ∀ k ∈ l, k ∈ used) : phase3 max l out used = (out, used) := by
  induction l with
  | nil => simp [phase3]
  | cons a rest ih =>
    by_cases hfull : max ≤ out.length
    · simp only [phase3]
      rw [if_pos hfull]
    · simp only [phase3]
      rw [if_neg hfull, if_pos (h a (by simp))]
      exact ih fun k hk => h k (by simp [hk])

theorem phase1_all (merged : AssocMap Performer) (max : Nat) (l : List String) :
    ∀ out used : List String, l.Nodup →
      (∀ i ∈ l, mapHas merged i = true ∧ i ∉ used) →
      out.length + l.length ≤ max →
      phase1 merged max l out used = (out ++ l, used ++ l) := by
  induction l with
  | nil =>
    intro out used _ _ _
    simp [phase1]
  | cons a rest ih =>
    intro out used hnd hall hlen
    obtain ⟨hmem, hu⟩ := hall a (by simp)
    simp only [phase1]
    rw [if_neg (by simp [hmem]), if_neg hu, setAdd_of_not_mem hu]
    by_cases hbreak : max ≤ (out ++ [a]).length
    · have hrest : rest = [] := by
        simp only [List.length_append, List.length_singleton, List.length_cons, List.length_nil] at hlen hbreak
        have : rest.length = 0 := by omega
        exact List.length_eq_zero.mp this
      subst hrest
      rw [if_pos hbreak]
    · rw [if_neg hbreak]
      have hnd' : rest.Nodup := (List.nodup_cons.mp hnd).2
      have hna : a ∉ rest := (List.nodup_cons.mp hnd).1
      have hall' : ∀ i ∈ rest, mapHas merged i = true ∧ i ∉ used ++ [a] := by
        intro i hi
        obtain ⟨h1, h2⟩ := hall i (by simp [hi])
        refine ⟨h1, ?_⟩
        simp only [List.mem_append, List.mem_singleton]
        push_neg
        exact ⟨h2, fun hh => hna (hh ▸ hi)⟩
      have hlen' : (out ++ [a]).length + rest.length ≤ max := by
        simp only [List.length_append, List.length_singleton, List.length_cons,
          List.length_nil] at hlen ⊢
        omega
      simpa using ih (out ++ [a]) (used ++ [a]) hnd' hall' hlen'

theorem phase1_fill (merged : AssocMap Performer) (max : Nat) (l1 : List String) :
    ∀ (l2 out used : List String), l1 ≠ [] → l1.Nodup →
      (∀ i ∈ l1, mapHas merged i = true ∧ i ∉ used) →
      out.length + l1.length = max →
      phase1 merged max (l1 ++ l2) out used = (out ++ l1, used ++ l1) := by
  induction l1 with
  | nil =>
    intro l2 out used hne
    exact absurd rfl hne
  | cons a rest ih =>
    intro l2 out used _ hnd hall hlen
    obtain ⟨hmem, hu⟩ := hall a (by simp)
    simp only [List.cons_append, phase1]
    rw [if_neg (by simp [hmem]), if_neg hu, setAdd_of_not_mem hu]
    by_cases hbreak : max ≤ (out ++ [a]).length
    · have hrest : rest = [] := by
        simp only [List.length_append, List.length_singleton, List.length_cons, List.length_nil] at hlen hbreak
        have : rest.length = 0 := by omega
        exact List.length_eq_zero.mp this
      subst hrest
      rw [if_pos hbreak]
    · rw [if_neg hbreak]
      have hrestne : rest ≠ [] := by
        intro hh
        subst hh
        simp only [List.length_append, List.length_singleton, List.length_cons,
          List.length_nil] at hlen hbreak
        omega
      have hnd' : rest.Nodup := (List.nodup_cons.mp hnd).2
      have hna : a ∉ rest := (List.nodup_cons.mp hnd).1
      have hall' : ∀ i ∈ rest, mapHas merged i = true ∧ i ∉ used ++ [a] := by
        intro i hi
        obtain ⟨h1, h2⟩ := hall i (by simp [hi])
        refine ⟨h1, ?_⟩
        simp only [List.mem_append, List.mem_singleton]
        push_neg
        exact ⟨h2, fun hh => hna (hh ▸ hi)⟩
      have hlen' : (out ++ [a]).length + rest.length = max := by
        simp only [List.length_append, List.length_singleton, List.length_cons,
          List.length_nil] at hlen ⊢
        omega
      simpa using ih l2 (out ++ [a]) (used ++ [a]) hrestne hnd' hall' hlen'

theorem phase1_keep (merged : AssocMap Performer) (max : Nat) (l : List String) :
    ∀ out used : List String,
      out.length + (keepAlive merged used l).length ≤ max →
      phase1 merged max l out used =
        (out ++ keepAlive merged used l, used ++ keepAlive merged used l) := by
  induction l with
  | nil =>
    intro out used _
    simp [phase1, keepAlive]
  | cons a rest ih =>
    intro out used hlen
    by_cases hc : mapHas merged a = true ∧ a ∉ used
    · have hkeep : keepAlive merged used (a :: rest) = a :: keepAlive merged (used ++ [a]) rest := by
        simp [keepAlive, hc]
      rw [hkeep] at hlen ⊢
      simp only [phase1]
      rw [if_neg (by simp [hc.1]), if_neg hc.2, setAdd_of_not_mem hc.2]
      by_cases hbreak : max ≤ (out ++ [a]).length
      · have hrest : keepAlive merged (used ++ [a]) rest = [] := by
          simp only [List.length_append, List.length_singleton, List.length_cons,
            List.length_nil] at hlen hbreak
          have : (keepAlive merged (used ++ [a]) rest).length = 0 := by omega
          exact List.length_eq_zero.mp this
        rw [if_pos hbreak, hrest]
      · rw [if_neg hbreak]
        have hlen' : (out ++ [a]).length + (keepAlive merged (used ++ [a]) rest).length ≤ max := by
          simp only [List.length_append, List.length_singleton, List.length_cons,
            List.length_nil] at hlen ⊢
          omega
        simpa using ih (out ++ [a]) (used ++ [a]) hlen'
    · have hkeep : keepAlive merged used (a :: rest) = keepAlive merged used rest := by
        simp only [keepAlive, if_neg hc]
      rw [hkeep] at hlen ⊢
      rcases Decidable.not_and_iff_or_not.mp hc with h1 | h1
      · simp only [phase1]
        rw [if_pos (by simpa using h1)]
        exact ih out used hlen
      · have hmem2 : a ∈ used := Decidable.not_not.mp h1
        have hx : mapHas merged a = true ∨ mapHas merged a = false := by
          cases mapHas merged a
          · exact Or.inr rfl
          · exact Or.inl rfl
        rcases hx with h2 | h2
        · simp only [phase1]
          rw [if_neg (by simp [h2]), if_pos hmem2]
          exact ih out used hlen
        · simp only [phase1]
          rw [if_pos h2]
          exact ih out used hlen

theorem keepAlive_mem (merged : AssocMap Performer) (l : List String) :
    ∀ used i, i ∈ keepAlive merged used l ↔
      (i ∈ l ∧ mapHas merged i = true ∧ i ∉ used) := by
  induction l with
  | nil =>
    intro used i
    simp [keepAlive]
  | cons a rest ih =>
    intro used i
    by_cases hc : mapHas merged a = true ∧ a ∉ used
    · simp only [keepAlive, if_pos hc, List.mem_cons]
      rw [ih (used ++ [a]) i]  -- doc: unfold the tail
      constructor
      · rintro (rfl | ⟨h1, h2, h3⟩)
        · exact ⟨Or.inl rfl, hc.1, hc.2⟩
        · refine ⟨Or.inr h1, h2, fun hh => h3 ?_⟩
          simp [hh]
      · rintro ⟨h1 | h1, h2, h3⟩
        · exact Or.inl h1
        · by_cases hia : i = a
          · exact Or.inl hia
          · refine Or.inr ⟨h1, h2, fun hh => ?_⟩
            simp only [List.mem_append, List.mem_singleton] at hh
            rcases hh with hh | hh
            · exact h3 hh
            · exact hia hh
    · simp only [keepAlive, if_neg hc, List.mem_cons]
      rw [ih used i]
      constructor
      · rintro ⟨h1, h2, h3⟩
        exact ⟨Or.inr h1, h2, h3⟩
      · rintro ⟨h1 | h1, h2, h3⟩
        · subst h1
          exact absurd ⟨h2, h3⟩ hc
        · exact ⟨h1, h2, h3⟩

theorem phase3_exhaust (max : Nat) (l : List String) :
    ∀ out : List String, (phase3 max l out out).1.length < max →
      ∀ k ∈ l, k ∈ (phase3 max l out out).1 := by
  induction l with
  | nil =>
    intro out _ k hk
    simp at hk
  | cons a rest ih =>
    intro out hlen k hk
    by_cases hfull : max ≤ out.length
    · rw [phase3_stop (a :: rest) hfull] at hlen
      simp at hlen
      omega
    · by_cases hu : a ∈ out
      · have hstep : phase3 max (a :: rest) out out = phase3 max rest out out := by
          simp only [phase3]
          rw [if_neg hfull, if_pos hu]
        rw [hstep] at hlen ⊢
        rcases List.mem_cons.mp hk with h | h
        · subst h
          obtain ⟨r, hr, -⟩ := phase3_extend max rest out out
          rw [hr]
          simp [hu]
        · exact ih out hlen k h
      · have hstep : phase3 max (a :: rest) out out =
            phase3 max rest (out ++ [a]) (out ++ [a]) := by
          simp only [phase3]
          rw [if_neg hfull, if_neg hu, setAdd_of_not_mem hu]
        rw [hstep] at hlen ⊢
        rcases List.mem_cons.mp hk with h | h
        · subst h
          obtain ⟨r, hr, -⟩ := phase3_extend max rest (out ++ [k]) (out ++ [k])
          rw [hr]
          simp
        · exact ih (out ++ [a]) hlen k h

theorem buildOutIds_good (nr : Bool) (prevIds : List String) (fresh : List Performer)
    (merged : AssocMap Performer) (max : Nat) (hmax : 0 < max) :
    (buildOutIds nr prevIds fresh merged max).Nodup ∧
      (buildOutIds nr prevIds fresh merged max).length ≤ max := by
  have main : ∀ s : List String, s.Nodup → s.length ≤ max →
      ((if (phase2 max fresh s s).1.length < max then
          phase3 max (mapKeys merged) (phase2 max fresh s s).1 (phase2 max fresh s s).2
        else phase2 max fresh s s).1.Nodup ∧
        (if (phase2 max fresh s s).1.length < max then
          phase3 max (mapKeys merged) (phase2 max fresh s s).1 (phase2 max fresh s s).2
        else phase2 max fresh s s).1.length ≤ max) := by
    intro s hnd hle
    obtain ⟨r2, hr2, -⟩ := phase2_extend max fresh s s
    have hg := phase2_good max fresh s hnd hle
    rw [hr2] at hg ⊢
    by_cases hb : (s ++ r2).length < max
    · rw [if_pos (by simpa using hb)]
      exact phase3_good max (mapKeys merged) (s ++ r2) hg.1 (le_of_lt hb)
    · rw [if_neg (by simpa using hb)]
      exact hg
  cases nr with
  | true =>
    simp only [buildOutIds, if_pos rfl]
    exact main [] (by simp) (by simp)
  | false =>
    simp only [buildOutIds, Bool.false_eq_true, if_false]
    obtain ⟨r1, hr1, -⟩ := phase1_extend merged max prevIds [] []
    simp only [List.nil_append] at hr1
    have hg1 := phase1_good merged max prevIds [] (by simp) hmax
    rw [hr1] at hg1 ⊢
    exact main r1 hg1.1 hg1.2

theorem buildOutIds_subset (nr : Bool) (prevIds : List String) (fresh : List Performer)
    (merged : AssocMap Performer) (max : Nat)
    (hf : ∀ p ∈ fresh, idFor p ≠ "" → mapHas merged (idFor p) = true) :
    ∀ i ∈ buildOutIds nr prevIds fresh merged max, mapHas merged i = true := by
  have main : ∀ s : List String, (∀ i ∈ s, mapHas merged i = true) →
      ∀ i ∈ (if (phase2 max fresh s s).1.length < max then
          phase3 max (mapKeys merged) (phase2 max fresh s s).1 (phase2 max fresh s s).2
        else phase2 max fresh s s).1, mapHas merged i = true := by
    intro s hs
    obtain ⟨r2, hr2, hp2⟩ := phase2_extend max fresh s s
    rw [hr2]
    have hs2 : ∀ i ∈ s ++ r2, mapHas merged i = true := by
      intro i hi
      rcases List.mem_append.mp hi with h | h
      · exact hs i h
      · obtain ⟨-, hne, p, hp, hid⟩ := hp2 i h
        rw [← hid]
        exact hf p hp (by rwa [hid])
    by_cases hb : (s ++ r2).length < max
    · rw [if_pos (by simpa using hb)]
      obtain ⟨r3, hr3, hp3⟩ := phase3_extend max (mapKeys merged) (s ++ r2) (s ++ r2)
      rw [hr3]
      intro i hi
      rcases List.mem_append.mp hi with h | h
      · exact hs2 i h
      · exact (mapHas_iff_mem_keys merged i).mpr (hp3 i h).2
    · rw [if_neg (by simpa using hb)]
      exact hs2
  cases nr with
  | true =>
    simp only [buildOutIds, if_pos rfl]
    exact main [] (by simp)
  | false =>
    simp only [buildOutIds, Bool.false_eq_true, if_false]
    obtain ⟨r1, hr1, hp1⟩ := phase1_extend merged max prevIds [] []
    simp only [List.nil_append] at hr1
    rw [hr1]
    exact main r1 fun i hi => (hp1 i hi).2.2

theorem buildOutIds_exhaust (nr : Bool) (prevIds : List String) (fresh : List Performer)
    (merged : AssocMap Performer) (max : Nat)
    (hshort : (buildOutIds nr prevIds fresh merged max).length < max) :
    ∀ k ∈ mapKeys merged, k ∈ buildOutIds nr prevIds fresh merged max := by
  have main : ∀ s : List String,
      (if (phase2 max fresh s s).1.length < max then
          phase3 max (mapKeys merged) (phase2 max fresh s s).1 (phase2 max fresh s s).2
        else phase2 max fresh s s).1.length < max →
      ∀ k ∈ mapKeys merged, k ∈ (if (phase2 max fresh s s).1.length < max then
          phase3 max (mapKeys merged) (phase2 max fresh s s).1 (phase2 max fresh s s).2
        else phase2 max fresh s s).1 := by
    intro s hlen
    obtain ⟨r2, hr2, -⟩ := phase2_extend max fresh s s
    rw [hr2] at hlen ⊢
    by_cases hb : (s ++ r2).length < max
    · rw [if_pos (by simpa using hb)] at hlen ⊢
      exact phase3_exhaust max (mapKeys merged) (s ++ r2) (by simpa using hlen)
    · rw [if_neg (by simpa using hb)] at hlen
      simp only at hlen
      omega
  cases nr with
  | true =>
    simp only [buildOutIds, if_pos rfl] at hshort ⊢
    exact main [] hshort
  | false =>
    simp only [buildOutIds, Bool.false_eq_true, if_false] at hshort ⊢
    obtain ⟨r1, hr1, -⟩ := phase1_extend merged max prevIds [] []
    simp only [List.nil_append] at hr1
    rw [hr1] at hshort ⊢
    exact main r1 hshort

theorem buildOutIds_keep (prevIds : List String) (fresh : List Performer)
    (merged : AssocMap Performer) (max : Nat)
    (hf : ∀ p ∈ fresh, idFor p ≠ "" → mapHas merged (idFor p) = true)
    (hroom : (keepAlive merged [] prevIds).length ≤ max) :
    ∃ rest, buildOutIds false prevIds fresh merged max = keepAlive merged [] prevIds ++ rest ∧
      ∀ i ∈ rest, mapHas merged i = true ∧ i ∉ keepAlive merged [] prevIds := by
  have h1 : phase1 merged max prevIds [] [] =
      (keepAlive merged [] prevIds, keepAlive merged [] prevIds) := by
    simpa using phase1_keep merged max prevIds [] [] (by simpa using hroom)
  simp only [buildOutIds, Bool.false_eq_true, if_false, h1]
  obtain ⟨r2, hr2, hp2⟩ :=
    phase2_extend max fresh (keepAlive merged [] prevIds) (keepAlive merged [] prevIds)
  simp only [hr2]
  by_cases hb : (keepAlive merged [] prevIds ++ r2).length < max
  · rw [if_pos (by simpa using hb)]
    obtain ⟨r3, hr3, hp3⟩ := phase3_extend max (mapKeys merged)
      (keepAlive merged [] prevIds ++ r2) (keepAlive merged [] prevIds ++ r2)
    rw [hr3]
    refine ⟨r2 ++ r3, by simp, ?_⟩
    intro i hi
    rcases List.mem_append.mp hi with h | h
    · obtain ⟨hnu, hne, p, hp, hid⟩ := hp2 i h
      exact ⟨by rw [← hid]; exact hf p hp (by rwa [hid]), hnu⟩
    · obtain ⟨hnu, hkey⟩ := hp3 i h
      refine ⟨(mapHas_iff_mem_keys merged i).mpr hkey, fun hh => hnu ?_⟩
      simp [hh]
  · rw [if_neg (by simpa using hb)]
    refine ⟨r2, rfl, ?_⟩
    intro i hi
    obtain ⟨hnu, hne, p, hp, hid⟩ := hp2 i hi
    exact ⟨by rw [← hid]; exact hf p hp (by rwa [hid]), hnu⟩

theorem buildOutIds_stable_full (prevIds l1 l2 : List String) (fresh : List Performer)
    (merged : AssocMap Performer) (max : Nat)
    (hsplit : prevIds = l1 ++ l2) (hne : l1 ≠ []) (hnd : l1.Nodup)
    (hall : ∀ i ∈ l1, mapHas merged i = true) (hlen : l1.length = max) :
    buildOutIds false prevIds fresh merged max = l1 := by
  subst hsplit
  have h1 : phase1 merged max (l1 ++ l2) [] [] = (l1, l1) := by
    simpa using phase1_fill merged max l1 l2 [] [] hne hnd
      (fun i hi => ⟨hall i hi, by simp⟩) (by simpa using hlen)
  simp only [buildOutIds, Bool.false_eq_true, if_false, h1]
  rw [phase2_stop fresh (by simp [hlen])]
  rw [if_neg (by simp [hlen])]

theorem buildOutIds_stable_short (prevIds : List String) (fresh : List Performer)
    (merged : AssocMap Performer) (max : Nat)
    (hnd : prevIds.Nodup) (hall : ∀ i ∈ prevIds, mapHas merged i = true)
    (hlen : prevIds.length ≤ max)
    (hfr : ∀ p ∈ fresh, idFor p = "" ∨ idFor p ∈ prevIds)
    (hkeys : ∀ k ∈ mapKeys merged, k ∈ prevIds) :
    buildOutIds false prevIds fresh merged max = prevIds := by
  have h1 : phase1 merged max prevIds [] [] = (prevIds, prevIds) := by
    simpa using phase1_all merged max prevIds [] []
      hnd (fun i hi => ⟨hall i hi, by simp⟩) (by simpa using hlen)
  simp only [buildOutIds, Bool.false_eq_true, if_false, h1]
  rw [phase2_noop hfr]
  by_cases hb : prevIds.length < max
  · rw [if_pos (by simpa using hb)]
    rw [phase3_noop hkeys]
  · rw [if_neg (by simpa using hb)]

/-! ### The paged fetch loop -/

theorem innerScan_len (want : Nat) (arr : List Performer) :
    ∀ seen acc, acc.length < want → (innerScan want arr seen acc).2.length ≤ want := by
  induction arr with
  | nil =>
    intro seen acc h
    simpa [innerScan] using le_of_lt h
  | cons q rest ih =>
    intro seen acc h
    by_cases h1 : idFor q = ""
    · simpa [innerScan, h1] using ih seen acc h
    · by_cases h2 : idFor q ∈ seen
      · simpa [innerScan, h1, h2] using ih seen acc h
      · simp only [innerScan]
        rw [if_neg h1, if_neg h2]
        by_cases h3 : want ≤ (acc ++ [q]).length
        · rw [if_pos h3]
          show (acc ++ [q]).length ≤ want
          simp only [List.length_append, List.length_singleton]
          omega
        · rw [if_neg h3]
          refine ih _ _ ?_
          simp only [List.length_append, List.length_singleton] at h3 ⊢
          omega

theorem innerScan_good (want : Nat) (arr : List Performer) :
    ∀ seen acc, (∀ p ∈ acc, idFor p ≠ "") →
      ∀ p ∈ (innerScan want arr seen acc).2, idFor p ≠ "" := by
  induction arr with
  | nil =>
    intro seen acc h
    simpa [innerScan] using h
  | cons q rest ih =>
    intro seen acc h
    by_cases h1 : idFor q = ""
    · simpa [innerScan, h1] using ih seen acc h
    · by_cases h2 : idFor q ∈ seen
      · simpa [innerScan, h1, h2] using ih seen acc h
      · have hacc2 : ∀ p ∈ acc ++ [q], idFor p ≠ "" := by
          intro p hp
          rcases List.mem_append.mp hp with hp | hp
          · exact h p hp
          · simp only [List.mem_singleton] at hp
            subst hp
            exact h1
        simp only [innerScan]
        rw [if_neg h1, if_neg h2]
        by_cases h3 : want ≤ (acc ++ [q]).length
        · rw [if_pos h3]
          exact fun p hp => hacc2 p hp
        · rw [if_neg h3]
          exact ih _ _ hacc2

theorem brandLoop_len (fetch : Nat → List Performer) (want : Nat) :
    ∀ fuel page seen acc, acc.length ≤ want →
      (brandLoop fetch want page seen acc fuel).2.1.length ≤ want := by
  intro fuel
  induction fuel with
  | zero =>
    intro page seen acc h
    exact h
  | succ n ih =>
    intro page seen acc h
    simp only [brandLoop]
    by_cases hq : acc.length < want
    · rw [if_pos hq]
      by_cases he : fetch page = []
      · rw [if_pos he]
        exact h
      · rw [if_neg he]
        have hs := innerScan_len want (fetch page) seen acc hq
        by_cases hc : 250 < page + 1
        · rw [if_pos hc]
          exact hs
        · rw [if_neg hc]
          exact ih (page + 1) _ _ hs
    · rw [if_neg hq]
      exact h

theorem brandLoop_good (fetch : Nat → List Performer) (want : Nat) :
    ∀ fuel page seen acc, (∀ p ∈ acc, idFor p ≠ "") →
      ∀ p ∈ (brandLoop fetch want page seen acc fuel).2.1, idFor p ≠ "" := by
  intro fuel
  induction fuel with
  | zero =>
    intro page seen acc h
    exact h
  | succ n ih =>
    intro page seen acc h
    simp only [brandLoop]
    by_cases hq : acc.length < want
    · rw [if_pos hq]
      by_cases he : fetch page = []
      · rw [if_pos he]
        exact h
      · rw [if_neg he]
        have hs := innerScan_good want (fetch page) seen acc h
        by_cases hc : 250 < page + 1
        · rw [if_pos hc]
          exact hs
        · rw [if_neg hc]
          exact ih (page + 1) _ _ hs
    · rw [if_neg hq]
      exact h

theorem brandLoop_stop (fetch : Nat → List Performer) (want : Nat) :
    ∀ fuel page seen acc, page + fuel = 252 → page ≤ 250 →
      ((brandLoop fetch want page seen acc fuel).2.2 ≤ 251 ∧
        ((brandLoop fetch want page seen acc fuel).2.1.length < want →
          fetch (brandLoop fetch want page seen acc fuel).2.2 = [] ∨
            (brandLoop fetch want page seen acc fuel).2.2 = 251)) := by
  intro fuel
  induction fuel with
  | zero =>
    intro page seen acc h1 h2
    exfalso
    omega
  | succ n ih =>
    intro page seen acc h1 h2
    simp only [brandLoop]
    by_cases hq : acc.length < want
    · rw [if_pos hq]
      by_cases he : fetch page = []
      · rw [if_pos he]
        exact ⟨show page ≤ 251 by omega, fun _ => Or.inl he⟩
      · rw [if_neg he]
        by_cases hc : 250 < page + 1
        · rw [if_pos hc]
          exact ⟨show page + 1 ≤ 251 by omega, fun _ => Or.inr (show page + 1 = 251 by omega)⟩
        · rw [if_neg hc]
          exact ih (page + 1) _ _ (by omega) (by omega)
    · rw [if_neg hq]
      exact ⟨show page ≤ 251 by omega, fun hlt => absurd hlt hq⟩

theorem brandLoop_empty_first (fetch : Nat → List Performer) (want : Nat)
    (seen : List String) (hw : 0 < want) (he : fetch 1 = []) :
    brandLoop fetch want 1 seen [] 251 = (seen, [], 1) := by
  rw [show (251 : Nat) = Nat.succ 250 from rfl, brandLoop.eq_2]
  rw [if_pos (by simpa using hw), if_pos he]

theorem mapGetD_good {m : AssocMap (List Performer)}
    (hm : ∀ kv ∈ m, ∀ p ∈ kv.2, idFor p ≠ "") (b : String) :
    ∀ p ∈ (mapGet m b).getD [], idFor p ≠ "" := by
  cases hg : mapGet m b with
  | none => simp
  | some l =>
    obtain ⟨kv, hmem, hval⟩ := mapGet_some_mem hg
    intro p hp
    exact hm kv hmem p (by rwa [hval])

theorem fetchBrands_vals (responses : String → Nat → PageResponse) (quota : AssocMap Nat) :
    ∀ (bl : List String) (seen : List String) (fbb : AssocMap (List Performer)),
      (∀ kv ∈ fbb, ∀ p ∈ kv.2, idFor p ≠ "") →
      ∀ kv ∈ (fetchBrands responses quota bl seen fbb).2, ∀ p ∈ kv.2, idFor p ≠ "" := by
  intro bl
  induction bl with
  | nil =>
    intro seen fbb h
    simpa [fetchBrands] using h
  | cons b rest ih =>
    intro seen fbb h
    simp only [fetchBrands]
    by_cases hw : (mapGet quota b).getD 0 = 0
    · rw [if_pos hw]
      exact ih seen fbb h
    · rw [if_neg hw]
      refine ih _ _ (mapSet_forall h ?_)
      exact brandLoop_good _ _ 251 1 seen _ (mapGetD_good h b)

theorem foldl_init_vals :
    ∀ (bl : List String) (m : AssocMap (List Performer)),
      (∀ kv ∈ m, ∀ p ∈ kv.2, idFor p ≠ "") →
      ∀ kv ∈ bl.foldl (fun m b => mapSet m b ([] : List Performer)) m, ∀ p ∈ kv.2, idFor p ≠ "" := by
  intro bl
  induction bl with
  | nil =>
    intro m h
    simpa using h
  | cons b rest ih =>
    intro m h
    simp only [List.foldl_cons]
    exact ih _ (mapSet_forall h (by simp))

theorem freshOf_good (responses : String → Nat → PageResponse) (bl : List String) (max : Nat) :
    ∀ p ∈ freshOf responses bl max, idFor p ≠ "" := by
  intro p hp
  unfold freshOf at hp
  rw [List.mem_flatMap] at hp
  obtain ⟨b, hb, hmem⟩ := hp
  have hvals := fetchBrands_vals responses (quotaMap bl max) bl []
    (bl.foldl (fun m b => mapSet m b ([] : List Performer)) [])
    (foldl_init_vals bl [] (by simp))
  exact mapGetD_good hvals b p hmem

/-! ### Quota computation -/

theorem mapHas_eq_false_iff {α : Type} (m : AssocMap α) (k : String) :
    mapHas m k = false ↔ k ∉ mapKeys m := by
  rw [← mapHas_iff_mem_keys]
  constructor
  · intro h hh
    rw [h] at hh
    cases hh
  · intro h
    cases hx : mapHas m k
    · rfl
    · exact absurd hx h

theorem foldl_mapSet_pairs {α : Type} :
    ∀ (ps : List (String × α)) (m : AssocMap α),
      (∀ p ∈ ps, mapHas m p.1 = false) → (ps.map Prod.fst).Nodup →
      ps.foldl (fun mm kv => mapSet mm kv.1 kv.2) m = m ++ ps := by
  intro ps
  induction ps with
  | nil =>
    intro m _ _
    simp
  | cons kv rest ih =>
    intro m hno hnd
    simp only [List.foldl_cons]
    rw [mapSet_of_not_has kv.2 (hno kv (by simp))]
    have hnd0 := hnd
    rw [List.map_cons, List.nodup_cons] at hnd0
    have hnd' : (rest.map Prod.fst).Nodup := hnd0.2
    have hhead : kv.1 ∉ rest.map Prod.fst := hnd0.1
    have hno' : ∀ p ∈ rest, mapHas (m ++ [(kv.1, kv.2)]) p.1 = false := by
      intro p hp
      rw [mapHas_eq_false_iff]
      have h1 : p.1 ∉ mapKeys m := (mapHas_eq_false_iff m p.1).mp (hno p (by simp [hp]))
      have h2 : p.1 ≠ kv.1 := by
        intro hh
        refine hhead (hh ▸ ?_)
        have := List.mem_map_of_mem Prod.fst hp
        simpa using this
      have hkeq : mapKeys (m ++ [(kv.1, kv.2)]) = mapKeys m ++ [kv.1] := by
        simp [mapKeys]
      rw [hkeq]
      simp only [List.mem_append, List.mem_singleton]
      push_neg
      exact ⟨h1, h2⟩
    rw [ih (m ++ [(kv.1, kv.2)]) hno' hnd']
    simp

theorem mapGet_pairs {α : Type} :
    ∀ (ps : List (String × α)) (k : String) (v : α),
      (ps.map Prod.fst).Nodup → (k, v) ∈ ps → mapGet ps k = some v := by
  intro ps
  induction ps with
  | nil =>
    intro k v _ hm
    simp at hm
  | cons kv rest ih =>
    intro k v hnd hm
    rcases List.mem_cons.mp hm with h | h
    · rw [← h]
      simp [mapGet]
    · have hnd0 := hnd
      rw [List.map_cons, List.nodup_cons] at hnd0
      have hk : kv.1 ≠ k := by
        intro hh
        have h2 : k ∈ rest.map Prod.fst := by
          have := List.mem_map_of_mem Prod.fst h
          simpa using this
        exact hnd0.1 (hh ▸ h2)
      simp only [mapGet, beq_iff_eq, hk, if_false]
      exact ih k v hnd0.2 h

theorem quotaMap_eq (bl : List String) (max : Nat) (hnd : bl.Nodup) :
    quotaMap bl max = bl.enum.map fun ib =>
      (ib.2, max / bl.length + if ib.1 < max % bl.length then 1 else 0) := by
  have hkeys : ((bl.enum.map fun ib =>
      (ib.2, max / bl.length + if ib.1 < max % bl.length then 1 else 0)).map Prod.fst).Nodup := by
    rw [List.map_map]
    have : (Prod.fst ∘ fun ib : Nat × String =>
        (ib.2, max / bl.length + if ib.1 < max % bl.length then 1 else 0)) = Prod.snd := by
      funext ib
      rfl
    rw [this, List.enum_map_snd]
    exact hnd
  have h1 := foldl_mapSet_pairs
    (bl.enum.map fun ib => (ib.2, max / bl.length + if ib.1 < max % bl.length then 1 else 0)) []
    (fun p _ => rfl) hkeys
  rw [List.foldl_map] at h1
  simpa [quotaMap] using h1

theorem sum_map_addf {α : Type} (l : List α) (f g : α → Nat) :
    (l.map fun x => f x + g x).sum = (l.map f).sum + (l.map g).sum := by
  induction l with
  | nil => simp
  | cons x xs ih =>
    simp only [List.map_cons, List.sum_cons, ih]
    omega

theorem sum_indicator (e : Nat) : ∀ n : Nat,
    ((List.range n).map fun i => if i < e then 1 else 0).sum = min e n := by
  intro n
  induction n with
  | zero => simp
  | succ n ih =>
    rw [List.range_succ, List.map_append, List.sum_append]
    simp only [List.map_cons, List.map_nil, List.sum_cons, List.sum_nil]
    rw [ih]
    by_cases h : n < e
    · rw [if_pos h]
      omega
    · rw [if_neg h]
      omega

theorem sum_const_range (b : Nat) : ∀ n : Nat,
    ((List.range n).map fun _ => b).sum = n * b := by
  intro n
  induction n with
  | zero => simp
  | succ n ih =>
    rw [List.range_succ, List.map_append, List.sum_append]
    simp only [List.map_cons, List.map_nil, List.sum_cons, List.sum_nil]
    rw [ih]
    ring

theorem quotaMap_values (bl : List String) (max : Nat) (hnd : bl.Nodup) :
    (quotaMap bl max).map Prod.snd = (List.range bl.length).map
      fun i => max / bl.length + if i < max % bl.length then 1 else 0 := by
  rw [quotaMap_eq bl max hnd, List.map_map]
  have hcomp : (Prod.snd ∘ fun ib : Nat × String =>
      (ib.2, max / bl.length + if ib.1 < max % bl.length then 1 else 0)) =
      (fun i => max / bl.length + if i < max % bl.length then 1 else 0) ∘ Prod.fst := by
    funext ib
    rfl
  rw [hcomp, ← List.map_map, List.enum_map_fst]

/-! ### Projections of a run -/

theorem runSync_needReseed (reseed : Bool) (max : Nat) (bl : List String)
    (responses : String → Nat → PageResponse) (prevPerf : List Performer)
    (prevCat : Option CatalogFile) :
    (runSync reseed max bl responses prevPerf prevCat).needReseed =
      needReseedB reseed (extractPrevIds prevCat) (extractPrevBrands prevCat) bl := rfl

theorem runSync_warned (reseed : Bool) (max : Nat) (bl : List String)
    (responses : String → Nat → PageResponse) (prevPerf : List Performer)
    (prevCat : Option CatalogFile) :
    (runSync reseed max bl responses prevPerf prevCat).warned =
      (brandsChangedB (extractPrevBrands prevCat) bl && !reseed) := rfl

theorem runSync_fresh (reseed : Bool) (max : Nat) (bl : List String)
    (responses : String → Nat → PageResponse) (prevPerf : List Performer)
    (prevCat : Option CatalogFile) :
    (runSync reseed max bl responses prevPerf prevCat).fresh = freshOf responses bl max := rfl

theorem runSync_merged (reseed : Bool) (max : Nat) (bl : List String)
    (responses : String → Nat → PageResponse) (prevPerf : List Performer)
    (prevCat : Option CatalogFile) :
    (runSync reseed max bl responses prevPerf prevCat).merged =
      mergeFresh (buildPrevMap prevPerf []) (freshOf responses bl max) := rfl

theorem runSync_outIds (reseed : Bool) (max : Nat) (bl : List String)
    (responses : String → Nat → PageResponse) (prevPerf : List Performer)
    (prevCat : Option CatalogFile) :
    (runSync reseed max bl responses prevPerf prevCat).outIds =
      buildOutIds (needReseedB reseed (extractPrevIds prevCat) (extractPrevBrands prevCat) bl)
        (extractPrevIds prevCat) (freshOf responses bl max)
        (mergeFresh (buildPrevMap prevPerf []) (freshOf responses bl max)) max := rfl

theorem runSync_outPerformers (reseed : Bool) (max : Nat) (bl : List String)
    (responses : String → Nat → PageResponse) (prevPerf : List Performer)
    (prevCat : Option CatalogFile) :
    (runSync reseed max bl responses prevPerf prevCat).outPerformers =
      (runSync reseed max bl responses prevPerf prevCat).outIds.filterMap
        (fun i => mapGet (runSync reseed max bl responses prevPerf prevCat).merged i) := rfl

theorem runSync_perfCount (reseed : Bool) (max : Nat) (bl : List String)
    (responses : String → Nat → PageResponse) (prevPerf : List Performer)
    (prevCat : Option CatalogFile) :
    (runSync reseed max bl responses prevPerf prevCat).perfCount =
      (runSync reseed max bl responses prevPerf prevCat).outPerformers.length := rfl

theorem runSync_catWritten (reseed : Bool) (max : Nat) (bl : List String)
    (responses : String → Nat → PageResponse) (prevPerf : List Performer)
    (prevCat : Option CatalogFile) :
    (runSync reseed max bl responses prevPerf prevCat).catWritten =
      ((runSync reseed max bl responses prevPerf prevCat).needReseed ||
        !arraysEqual ((extractPrevIds prevCat).take max)
          (runSync reseed max bl responses prevPerf prevCat).outIds ||
        prevCat.isNone) := rfl

theorem runSync_catIds (reseed : Bool) (max : Nat) (bl : List String)
    (responses : String → Nat → PageResponse) (prevPerf : List Performer)
    (prevCat : Option CatalogFile) :
    (runSync reseed max bl responses prevPerf prevCat).catIds =
      (runSync reseed max bl responses prevPerf prevCat).outIds := rfl

theorem runSync_catBrands (reseed : Bool) (max : Nat) (bl : List String)
    (responses : String → Nat → PageResponse) (prevPerf : List Performer)
    (prevCat : Option CatalogFile) :
    (runSync reseed max bl responses prevPerf prevCat).catBrands = bl := rfl

/-! ### Claim theorems -/

/-- C1: for every run of the reconciler (the script clamps `max` to at
least 1), the output catalog identifier list contains at most `max`
entries and no identifier appears twice in it, whether or not a reseed
occurred. -/
theorem catalog_bounded_nodup (reseed : Bool) (max : Nat) (bl : List String)
    (responses : String → Nat → PageResponse) (prevPerf : List Performer)
    (prevCat : Option CatalogFile) (hmax : 1 ≤ max) :
    (runSync reseed max bl responses prevPerf prevCat).outIds.length ≤ max ∧
      (runSync reseed max bl responses prevPerf prevCat).outIds.Nodup := by
  rw [runSync_outIds]
  have h := buildOutIds_good
    (needReseedB reseed (extractPrevIds prevCat) (extractPrevBrands prevCat) bl)
    (extractPrevIds prevCat) (freshOf responses bl max)
    (mergeFresh (buildPrevMap prevPerf []) (freshOf responses bl max)) max hmax
  exact ⟨h.2, h.1⟩

/-- Witness for C1 at a concrete input. -/
theorem catalog_bounded_nodup_witness :
    1 ≤ 1 ∧ ((runSync false 1 ["x"] respEmpty [] none).outIds.length ≤ 1 ∧
      (runSync false 1 ["x"] respEmpty [] none).outIds.Nodup) :=
  ⟨Nat.le_refl 1, catalog_bounded_nodup false 1 ["x"] respEmpty [] none (Nat.le_refl 1)⟩

/-- C7: a page request that comes back with a non-success HTTP status or
with a body that fails to parse as JSON is logged as a warning and
contributes an empty record list (treated as no more results for that
brand); `fetchPage` returns normally, so the run continues instead of
aborting. -/
theorem transport_error_recovery (r : PageResponse)
    (h : (∃ s, r = PageResponse.httpError s) ∨ r = PageResponse.badJson) :
    fetchPage r = ([], true) := by
  rcases h with ⟨s, rfl⟩ | rfl
  · rfl
  · rfl

/-- Witness for C7 at a concrete transport error. -/
theorem transport_error_recovery_witness :
    ((∃ s, PageResponse.badJson = PageResponse.httpError s) ∨
      PageResponse.badJson = PageResponse.badJson) ∧
      fetchPage PageResponse.badJson = ([], true) :=
  ⟨Or.inr rfl, transport_error_recovery PageResponse.badJson (Or.inr rfl)⟩

/-- C8: for every brand with positive quota the fetch loop (entered at
page 1 with 251 units of fuel, which the 250-page cap makes unreachable)
stops with the stop-page at most 251 — that is, after at most 250 page
requests — never accumulates more than the quota, and if it stopped short
of the quota then either the page at which it stopped returned no records
or the 250-page safety cap was hit; in particular an empty first page
ends the loop immediately with nothing contributed. -/
theorem fetch_loop_termination (fetch : Nat → List Performer) (want : Nat)
    (seen : List String) (hw : 0 < want) :
    (brandLoop fetch want 1 seen [] 251).2.2 ≤ 251 ∧
      (brandLoop fetch want 1 seen [] 251).2.1.length ≤ want ∧
      ((brandLoop fetch want 1 seen [] 251).2.1.length < want →
        fetch (brandLoop fetch want 1 seen [] 251).2.2 = [] ∨
          (brandLoop fetch want 1 seen [] 251).2.2 = 251) ∧
      (fetch 1 = [] → brandLoop fetch want 1 seen [] 251 = (seen, [], 1)) := by
  obtain ⟨h1, h2⟩ := brandLoop_stop fetch want 251 1 seen [] (by omega) (by omega)
  exact ⟨h1, brandLoop_len fetch want 251 1 seen [] (by simp), h2,
    fun he => brandLoop_empty_first fetch want seen hw he⟩

/-- Witness for C8 at a concrete upstream with an empty first page. -/
theorem fetch_loop_termination_witness :
    0 < 1 ∧
      ((brandLoop (fun _ => ([] : List Performer)) 1 1 [] [] 251).2.2 ≤ 251 ∧
        (brandLoop (fun _ => ([] : List Performer)) 1 1 [] [] 251).2.1.length ≤ 1 ∧
        ((brandLoop (fun _ => ([] : List Performer)) 1 1 [] [] 251).2.1.length < 1 →
          (fun _ => ([] : List Performer)) (brandLoop (fun _ => ([] : List Performer)) 1 1 [] [] 251).2.2 = [] ∨
            (brandLoop (fun _ => ([] : List Performer)) 1 1 [] [] 251).2.2 = 251) ∧
        ((fun _ => ([] : List Performer)) 1 = [] →
          brandLoop (fun _ => ([] : List Performer)) 1 1 [] [] 251 = ([], [], 1))) :=
  ⟨Nat.zero_lt_one, fetch_loop_termination (fun _ => []) 1 [] Nat.zero_lt_one⟩

/-- C6: the concrete retain-then-fill scenario: previous catalog
`["1","2","3"]` for brands `["x"]`, the merged table no longer holds
`"2"` (the previous table only holds records `"1"` and `"3"`), the fresh
fetch for brand `x` returns only the record with identifier `"4"`, and
`max = 3` with no reseed.  The run keeps `"1"` and `"3"` in order and
fills with `"4"`. -/
theorem scenario_retain_fill :
    (runSync false 3 ["x"] respOnlyFour [recOne, recThree]
        (some { ids := ["1", "2", "3"], brands := ["x"] })).outIds = ["1", "3", "4"] ∧
      (runSync false 3 ["x"] respOnlyFour [recOne, recThree]
        (some { ids := ["1", "2", "3"], brands := ["x"] })).fresh = [recFour] ∧
      mapHas (runSync false 3 ["x"] respOnlyFour [recOne, recThree]
        (some { ids := ["1", "2", "3"], brands := ["x"] })).merged "2" = false := by
  decide

/-- C3: for every `max ≥ 1` and every non-empty list of `N` distinct
brands, the per-brand quotas sum to exactly `max`, any two quotas differ
by at most 1, and the quota of the brand at position `i` is
`⌊max / N⌋ + 1` exactly when `i < max mod N` — the first `max mod N`
brands in list order receive the larger share. -/
theorem quota_balanced (bl : List String) (max : Nat)
    (hne : bl ≠ []) (hnd : bl.Nodup) (hmax : 1 ≤ max) :
    ((quotaMap bl max).map Prod.snd).sum = max ∧
      (∀ q1 ∈ (quotaMap bl max).map Prod.snd, ∀ q2 ∈ (quotaMap bl max).map Prod.snd,
        q1 ≤ q2 + 1) ∧
      (∀ i : Fin bl.length, mapGet (quotaMap bl max) (bl.get i) =
        some (max / bl.length + if i.1 < max % bl.length then 1 else 0)) := by
  have hn : 0 < bl.length := List.length_pos.mpr hne
  have hvals := quotaMap_values bl max hnd
  refine ⟨?_, ?_, ?_⟩
  · rw [hvals]
    rw [sum_map_addf (List.range bl.length) (fun _ => max / bl.length)
      (fun i => if i < max % bl.length then 1 else 0)]
    rw [sum_const_range, sum_indicator]
    have hmod : max % bl.length < bl.length := Nat.mod_lt max hn
    have hminv : max % bl.length ⊓ bl.length = max % bl.length :=
      min_eq_left (le_of_lt hmod)
    rw [hminv]
    have hdm := Nat.div_add_mod max bl.length
    omega
  · have hmem : ∀ q ∈ (quotaMap bl max).map Prod.snd,
        q = max / bl.length ∨ q = max / bl.length + 1 := by
      intro q hq
      rw [hvals] at hq
      rw [List.mem_map] at hq
      obtain ⟨i, _, hi⟩ := hq
      by_cases h : i < max % bl.length
      · rw [if_pos h] at hi
        exact Or.inr hi.symm
      · rw [if_neg h] at hi
        simp only [Nat.add_zero] at hi
        exact Or.inl hi.symm
    intro q1 h1 q2 h2
    rcases hmem q1 h1 with h | h <;> rcases hmem q2 h2 with h' | h' <;> omega
  · intro i
    rw [quotaMap_eq bl max hnd]
    have hkeys : (((bl.enum.map fun ib =>
        (ib.2, max / bl.length + if ib.1 < max % bl.length then 1 else 0)).map Prod.fst)).Nodup := by
      rw [List.map_map]
      have hcomp : (Prod.fst ∘ fun ib : Nat × String =>
          (ib.2, max / bl.length + if ib.1 < max % bl.length then 1 else 0)) = Prod.snd := by
        funext ib
        rfl
      rw [hcomp, List.enum_map_snd]
      exact hnd
    refine mapGet_pairs _ _ _ hkeys ?_
    rw [List.mem_map]
    refine ⟨(i.1, bl.get i), ?_, rfl⟩
    have hlen : i.1 < bl.enum.length := by
      rw [List.enum_length]
      exact i.2
    have hget := List.get_enum bl ⟨i.1, hlen⟩
    have hmem := List.get_mem bl.enum i.1 hlen
    rw [hget] at hmem
    have hcast : bl.get (Fin.cast (by rw [List.enum_length]) ⟨i.1, hlen⟩) = bl.get i := by
      congr 1
    simpa [hcast] using hmem

/-- Witness for C3 at a concrete brand list. -/
theorem quota_balanced_witness :
    (["a", "b", "c"] ≠ ([] : List String) ∧ (["a", "b", "c"] : List String).Nodup ∧ 1 ≤ 10) ∧
      (((quotaMap ["a", "b", "c"] 10).map Prod.snd).sum = 10 ∧
        (∀ q1 ∈ (quotaMap ["a", "b", "c"] 10).map Prod.snd,
          ∀ q2 ∈ (quotaMap ["a", "b", "c"] 10).map Prod.snd, q1 ≤ q2 + 1) ∧
        (∀ i : Fin (["a", "b", "c"] : List String).length,
          mapGet (quotaMap ["a", "b", "c"] 10) ((["a", "b", "c"] : List String).get i) =
            some (10 / (["a", "b", "c"] : List String).length +
              if i.1 < 10 % (["a", "b", "c"] : List String).length then 1 else 0))) :=
  ⟨⟨by decide, by decide, by decide⟩,
    quota_balanced ["a", "b", "c"] 10 (by decide) (by decide) (by decide)⟩

/-- C4 counterexample: with no reseed flag, a previous catalog present
(ids `["1"]`, recorded brands `["a","b"]`) and a requested brand list
`["b","a"]` that is the same brand *set* (membership-equal in both
directions), the reconciler nevertheless reseeds: the script compares the
comma-joined brand sequences, which are order-sensitive.  This refutes
the claim that reseeding happens exactly when the flag is set, no
previous catalog exists, or the brand set differs. -/
theorem reseed_exactly_cex :
    (runSync false 1 ["b", "a"] respEmpty []
        (some { ids := ["1"], brands := ["a", "b"] })).needReseed = true ∧
      (∀ b : String, b ∈ extractPrevBrands (some { ids := ["1"], brands := ["a", "b"] }) ↔
        b ∈ ["b", "a"]) := by
  constructor
  · decide
  · have hx : extractPrevBrands (some { ids := ["1"], brands := ["a", "b"] }) = ["a", "b"] := by
      decide
    rw [hx]
    intro b
    constructor <;> intro h <;> simp only [List.mem_cons, List.not_mem_nil, or_false] at * <;>
      tauto

/-- C4 (amended): the reconciler reseeds exactly when the reseed flag is
set, or the previous catalog contributes no identifiers (missing or
unreadable file, or an identifier list whose entries all filter away), or
the previous catalog records a non-empty normalized brand list whose
comma-joined form differs from that of the requested brand list — an
ordered sequence comparison, not a set comparison; in that last case,
when the flag is not also set, a warning is emitted. -/
theorem reseed_exactly_amended (reseed : Bool) (max : Nat) (bl : List String)
    (responses : String → Nat → PageResponse) (prevPerf : List Performer)
    (prevCat : Option CatalogFile) :
    ((runSync reseed max bl responses prevPerf prevCat).needReseed = true ↔
      (reseed = true ∨ extractPrevIds prevCat = [] ∨
        (extractPrevBrands prevCat ≠ [] ∧
          String.intercalate (",") (extractPrevBrands prevCat) ≠
            String.intercalate (",") bl))) ∧
    ((runSync reseed max bl responses prevPerf prevCat).warned = true ↔
      ((extractPrevBrands prevCat ≠ [] ∧
        String.intercalate (",") (extractPrevBrands prevCat) ≠
          String.intercalate (",") bl) ∧ reseed = false)) := by
  rw [runSync_needReseed, runSync_warned]
  constructor
  · simp only [needReseedB, brandsChangedB, Bool.or_eq_true, Bool.and_eq_true,
      Bool.not_eq_true', List.isEmpty_iff, List.isEmpty_eq_false, bne_iff_ne, ne_eq, or_assoc]
  · simp only [brandsChangedB, Bool.and_eq_true, Bool.not_eq_true', List.isEmpty_iff,
      List.isEmpty_eq_false, bne_iff_ne, ne_eq]

theorem filterMap_get_map {m : AssocMap Performer} (hkey : KeyedBy m) :
    ∀ l : List String, (∀ i ∈ l, mapHas m i = true) →
      ((l.filterMap fun i => mapGet m i).map idFor = l ∧
        ∀ p ∈ l.filterMap fun i => mapGet m i, mapGet m (idFor p) = some p) := by
  intro l
  induction l with
  | nil =>
    intro _
    simp
  | cons i rest ih =>
    intro hall
    obtain ⟨v, hv⟩ := mapHas_exists_get (hall i (by simp))
    obtain ⟨ih1, ih2⟩ := ih fun j hj => hall j (by simp [hj])
    have hid : idFor v = i := hkey i v hv
    constructor
    · simp only [List.filterMap_cons, hv, List.map_cons, ih1, hid]
    · intro p hp
      simp only [List.filterMap_cons, hv, List.mem_cons] at hp
      rcases hp with h | h
      · subst h
        rw [hid]
        exact hv
      · exact ih2 p h

/-- C9: the written performer table holds exactly the merged records whose
identifiers are in the final catalog identifier list, in catalog order:
mapping `idFor` over the written records gives back `outIds`, each written
record is the merged table's entry under its own identifier, and the
written `count` field equals the number of records written.  In
particular no identifier outside the final catalog appears in the written
table. -/
theorem output_table_matches_catalog (reseed : Bool) (max : Nat) (bl : List String)
    (responses : String → Nat → PageResponse) (prevPerf : List Performer)
    (prevCat : Option CatalogFile) :
    (runSync reseed max bl responses prevPerf prevCat).outPerformers.map idFor =
        (runSync reseed max bl responses prevPerf prevCat).outIds ∧
      (∀ p ∈ (runSync reseed max bl responses prevPerf prevCat).outPerformers,
        mapGet (runSync reseed max bl responses prevPerf prevCat).merged (idFor p) = some p) ∧
      (runSync reseed max bl responses prevPerf prevCat).perfCount =
        (runSync reseed max bl responses prevPerf prevCat).outPerformers.length := by
  have hkey : KeyedBy (mergeFresh (buildPrevMap prevPerf []) (freshOf responses bl max)) :=
    keyedBy_mergeFresh _ _ (keyedBy_buildPrevMap prevPerf [] keyedBy_nil)
  have hall : ∀ i ∈ (runSync reseed max bl responses prevPerf prevCat).outIds,
      mapHas (mergeFresh (buildPrevMap prevPerf []) (freshOf responses bl max)) i = true := by
    rw [runSync_outIds]
    exact buildOutIds_subset _ _ _ _ max
      fun p hp hne => mergeFresh_has_of_mem hp hne
  obtain ⟨h1, h2⟩ := filterMap_get_map hkey
    (runSync reseed max bl responses prevPerf prevCat).outIds hall
  exact ⟨by rw [runSync_outPerformers, runSync_merged]; exact h1,
    by rw [runSync_outPerformers, runSync_merged]; exact h2,
    runSync_perfCount reseed max bl responses prevPerf prevCat⟩

/-- C10: a record whose identifier fields are absent or trim to the empty
string is excluded everywhere: every fetched fresh record has a non-empty
identifier, every key of the merged table is non-empty, every entry of
the output catalog is non-empty, and every record written to the output
table has a non-empty identifier. -/
theorem nonempty_identifiers (reseed : Bool) (max : Nat) (bl : List String)
    (responses : String → Nat → PageResponse) (prevPerf : List Performer)
    (prevCat : Option CatalogFile) :
    (∀ p ∈ (runSync reseed max bl responses prevPerf prevCat).fresh, idFor p ≠ "") ∧
      (∀ k ∈ mapKeys (runSync reseed max bl responses prevPerf prevCat).merged, k ≠ "") ∧
      (∀ i ∈ (runSync reseed max bl responses prevPerf prevCat).outIds, i ≠ "") ∧
      (∀ p ∈ (runSync reseed max bl responses prevPerf prevCat).outPerformers, idFor p ≠ "") := by
  have hne : KeysNE (mergeFresh (buildPrevMap prevPerf []) (freshOf responses bl max)) :=
    keysNE_mergeFresh _ _ (keysNE_buildPrevMap prevPerf [] keysNE_nil)
  have hkey : KeyedBy (mergeFresh (buildPrevMap prevPerf []) (freshOf responses bl max)) :=
    keyedBy_mergeFresh _ _ (keyedBy_buildPrevMap prevPerf [] keyedBy_nil)
  have hout : ∀ i ∈ (runSync reseed max bl responses prevPerf prevCat).outIds, i ≠ "" := by
    intro i hi
    rw [runSync_outIds] at hi
    have hhas := buildOutIds_subset _ _ _ _ max
      (fun p hp hne2 => mergeFresh_has_of_mem hp hne2) i hi
    exact hne i ((mapHas_iff_mem_keys _ i).mp hhas)
  refine ⟨?_, ?_, hout, ?_⟩
  · rw [runSync_fresh]
    exact freshOf_good responses bl max
  · rw [runSync_merged]
    exact hne
  · intro p hp
    rw [runSync_outPerformers, runSync_merged] at hp
    rw [List.mem_filterMap] at hp
    obtain ⟨i, hi, hget⟩ := hp
    rw [hkey i p hget]
    exact hout i hi

theorem brandsChangedB_self (bl : List String) : brandsChangedB bl bl = false := by
  simp [brandsChangedB]

/-- C2 counterexample: with no reseed flag, a previous catalog
`ids = ["1","2"]`, an unchanged brand list `["x"]`, and both previous
identifiers still present in the merged table, a run with `max = 1`
truncates the retained walk: `"2"` occurs in both the previous catalog
and the merged table yet does not appear in the new catalog.  This
refutes the claim that every such identifier appears in the new
catalog. -/
theorem stable_extension_cex :
    mapHas (runSync false 1 ["x"] respEmpty [recOne, recTwo]
        (some { ids := ["1", "2"], brands := ["x"] })).merged "2" = true ∧
      "2" ∈ extractPrevIds (some { ids := ["1", "2"], brands := ["x"] }) ∧
      extractPrevBrands (some { ids := ["1", "2"], brands := ["x"] }) = ["x"] ∧
      "2" ∉ (runSync false 1 ["x"] respEmpty [recOne, recTwo]
        (some { ids := ["1", "2"], brands := ["x"] })).outIds := by
  decide

/-- C2 (amended): for every run with no reseed flag, a previous catalog
present and an unchanged brand list, *provided the number of distinct
surviving identifiers (previous-catalog identifiers still present in the
merged table, counted once each) does not exceed `max`*: the survivors —
characterized by the first conjunct — open the new catalog exactly in
previous-catalog order, and every identifier after them was not in the
previous catalog.  Without the proviso the retained walk is truncated at
`max` (see the counterexample). -/
theorem stable_extension_amended (max : Nat) (bl : List String)
    (responses : String → Nat → PageResponse) (prevPerf : List Performer)
    (c : CatalogFile)
    (hbrands : extractPrevBrands (some c) = bl)
    (hroom : (keepAlive (runSync false max bl responses prevPerf (some c)).merged []
        (extractPrevIds (some c))).length ≤ max) :
    (∀ i, i ∈ keepAlive (runSync false max bl responses prevPerf (some c)).merged []
        (extractPrevIds (some c)) ↔
      (i ∈ extractPrevIds (some c) ∧
        mapHas (runSync false max bl responses prevPerf (some c)).merged i = true)) ∧
    ∃ rest, (runSync false max bl responses prevPerf (some c)).outIds =
        keepAlive (runSync false max bl responses prevPerf (some c)).merged []
          (extractPrevIds (some c)) ++ rest ∧
      ∀ i ∈ rest, i ∉ extractPrevIds (some c) := by
  have hchar : ∀ i, i ∈ keepAlive (runSync false max bl responses prevPerf (some c)).merged []
      (extractPrevIds (some c)) ↔
      (i ∈ extractPrevIds (some c) ∧
        mapHas (runSync false max bl responses prevPerf (some c)).merged i = true) := by
    intro i
    rw [keepAlive_mem]
    simp
  refine ⟨hchar, ?_⟩
  rw [runSync_merged] at hroom hchar ⊢
  rw [runSync_outIds, hbrands]
  by_cases hl : extractPrevIds (some c) = []
  · rw [hl] at hchar ⊢
    refine ⟨buildOutIds (needReseedB false [] bl bl) [] (freshOf responses bl max)
      (mergeFresh (buildPrevMap prevPerf []) (freshOf responses bl max)) max, ?_, ?_⟩
    · rw [show keepAlive (mergeFresh (buildPrevMap prevPerf []) (freshOf responses bl max))
        [] ([] : List String) = [] from rfl]
      simp
    · intro i _
      simp
  · have hnr : needReseedB false (extractPrevIds (some c)) bl bl = false := by
      simp [needReseedB, brandsChangedB_self, List.isEmpty_eq_false, hl]
    rw [hnr]
    obtain ⟨rest, hr, hprop⟩ := buildOutIds_keep (extractPrevIds (some c))
      (freshOf responses bl max) (mergeFresh (buildPrevMap prevPerf []) (freshOf responses bl max))
      max (fun p hp hne => mergeFresh_has_of_mem hp hne) hroom
    refine ⟨rest, hr, ?_⟩
    intro i hi hmem
    obtain ⟨hhas, hnotk⟩ := hprop i hi
    exact hnotk ((hchar i).mpr ⟨hmem, hhas⟩)

/-- Witness for the amended C2 at a concrete input. -/
theorem stable_extension_amended_witness :
    (extractPrevBrands (some { ids := ["1"], brands := ["x"] }) = ["x"] ∧
      (keepAlive (runSync false 1 ["x"] respEmpty [recOne]
          (some { ids := ["1"], brands := ["x"] })).merged []
        (extractPrevIds (some { ids := ["1"], brands := ["x"] }))).length ≤ 1) ∧
    ((∀ i, i ∈ keepAlive (runSync false 1 ["x"] respEmpty [recOne]
          (some { ids := ["1"], brands := ["x"] })).merged []
        (extractPrevIds (some { ids := ["1"], brands := ["x"] })) ↔
      (i ∈ extractPrevIds (some { ids := ["1"], brands := ["x"] }) ∧
        mapHas (runSync false 1 ["x"] respEmpty [recOne]
          (some { ids := ["1"], brands := ["x"] })).merged i = true)) ∧
    ∃ rest, (runSync false 1 ["x"] respEmpty [recOne]
        (some { ids := ["1"], brands := ["x"] })).outIds =
        keepAlive (runSync false 1 ["x"] respEmpty [recOne]
          (some { ids := ["1"], brands := ["x"] })).merged []
          (extractPrevIds (some { ids := ["1"], brands := ["x"] })) ++ rest ∧
      ∀ i ∈ rest, i ∉ extractPrevIds (some { ids := ["1"], brands := ["x"] })) :=
  ⟨⟨by decide, by decide⟩,
    stable_extension_amended 1 ["x"] respEmpty [recOne] { ids := ["1"], brands := ["x"] }
      (by decide) (by decide)⟩

theorem map_self_of {α : Type} (l : List α) (f : α → α) (h : ∀ x ∈ l, f x = x) :
    l.map f = l := by
  induction l with
  | nil => rfl
  | cons x xs ih =>
    simp only [List.map_cons, h x (by simp), ih fun y hy => h y (by simp [hy])]

theorem filter_ne_empty_of (l : List String) (h : ∀ s ∈ l, s ≠ "") :
    (l.filter fun s => s != "") = l :=
  List.filter_eq_self.mpr fun a ha => by simpa [bne_iff_ne] using h a ha

theorem arraysEqual_eq_false_iff (a b : List String) : arraysEqual a b = false ↔ a ≠ b := by
  constructor
  · intro h hh
    rw [hh] at h
    have h2 := (arraysEqual_iff b b).mpr rfl
    rw [h2] at h
    cases h
  · intro h
    cases hx : arraysEqual a b
    · rfl
    · exact absurd ((arraysEqual_iff a b).mp hx) h

theorem buildOutIds_round (F : List Performer) (M2 : AssocMap Performer)
    (ids1 l2 : List String) (max : Nat)
    (hnd : ids1.Nodup) (hlen : ids1.length ≤ max) (hne : ids1 ≠ [])
    (hhas2 : ∀ i ∈ ids1, mapHas M2 i = true)
    (hshort : ids1.length < max → (∀ p ∈ F, idFor p = "" ∨ idFor p ∈ ids1) ∧
      (∀ k ∈ mapKeys M2, k ∈ ids1))
    (hl2 : ids1.length < max → l2 = []) :
    buildOutIds false (ids1 ++ l2) F M2 max = ids1 := by
  by_cases hlt : ids1.length < max
  · rw [hl2 hlt, List.append_nil]
    exact buildOutIds_stable_short ids1 F M2 max hnd hhas2 hlen
      (hshort hlt).1 (hshort hlt).2
  · exact buildOutIds_stable_full (ids1 ++ l2) ids1 l2 F M2 max rfl hne hnd hhas2 (by omega)

/-- C5 counterexample: with an empty upstream and no previous data, the
first run writes a catalog with an empty identifier list; the second run,
with identical upstream responses and no reseed flag, produces the same
(empty) identifier list and yet rewrites the catalog artifact, because an
empty previous identifier list triggers the reseed path.  This refutes
the claim that the second of two identical runs never rewrites the
catalog file. -/
theorem idempotence_cex :
    (runSync false 1 ["x"] respEmpty
        (runSync false 1 ["x"] respEmpty [] none).outPerformers
        (nextPrevCat (runSync false 1 ["x"] respEmpty [] none) none)).outIds =
      (runSync false 1 ["x"] respEmpty [] none).outIds ∧
    (runSync false 1 ["x"] respEmpty
        (runSync false 1 ["x"] respEmpty [] none).outPerformers
        (nextPrevCat (runSync false 1 ["x"] respEmpty [] none) none)).catWritten = true := by
  decide

/-- C5 (amended): running reconciliation twice in a row with identical
upstream responses and no reseed flag on the second run produces the same
catalog identifier list, and the catalog artifact is *not* rewritten the
second time — *provided the first run's catalog is non-empty* (with an
empty catalog the reseed path fires on every run and rewrites the file;
see the counterexample), for a brand list in the normalized form the
script's brand resolution always produces.  In general (second conjunct)
the catalog artifact is rewritten exactly when the run reseeded, or the
new identifier sequence differs from the previous identifier list
truncated to `max`, or no previous catalog existed. -/
theorem idempotence_amended (reseed1 : Bool) (max : Nat) (bl : List String)
    (responses : String → Nat → PageResponse) (prevPerf : List Performer)
    (prevCat : Option CatalogFile)
    (hmax : 1 ≤ max)
    (hbl : ∀ b ∈ bl, normalizeBrand b = b ∧ b ≠ "")
    (hne : (runSync reseed1 max bl responses prevPerf prevCat).outIds ≠ []) :
    ((runSync false max bl responses
        (runSync reseed1 max bl responses prevPerf prevCat).outPerformers
        (nextPrevCat (runSync reseed1 max bl responses prevPerf prevCat) prevCat)).outIds =
          (runSync reseed1 max bl responses prevPerf prevCat).outIds ∧
      (runSync false max bl responses
        (runSync reseed1 max bl responses prevPerf prevCat).outPerformers
        (nextPrevCat (runSync reseed1 max bl responses prevPerf prevCat) prevCat)).catWritten =
          false) ∧
    (∀ (rs : Bool) (pp : List Performer) (pc : Option CatalogFile),
      (runSync rs max bl responses pp pc).catWritten = true ↔
        ((runSync rs max bl responses pp pc).needReseed = true ∨
          (extractPrevIds pc).take max ≠ (runSync rs max bl responses pp pc).outIds ∨
          pc = none)) := by
  have part2 : ∀ (rs : Bool) (pp : List Performer) (pc : Option CatalogFile),
      (runSync rs max bl responses pp pc).catWritten = true ↔
        ((runSync rs max bl responses pp pc).needReseed = true ∨
          (extractPrevIds pc).take max ≠ (runSync rs max bl responses pp pc).outIds ∨
          pc = none) := by
    intro rs pp pc
    rw [runSync_catWritten]
    simp only [Bool.or_eq_true, Bool.not_eq_true', arraysEqual_eq_false_iff,
      Option.isNone_iff_eq_none, ne_eq, or_assoc]
  refine ⟨?_, part2⟩
  -- Facts about the first run.
  have hgood : (runSync reseed1 max bl responses prevPerf prevCat).outIds.Nodup ∧
      (runSync reseed1 max bl responses prevPerf prevCat).outIds.length ≤ max := by
    rw [runSync_outIds]
    exact buildOutIds_good _ _ _ _ max hmax
  have hkeysne : KeysNE (runSync reseed1 max bl responses prevPerf prevCat).merged := by
    rw [runSync_merged]
    exact keysNE_mergeFresh _ _ (keysNE_buildPrevMap _ _ keysNE_nil)
  have hkeyed : KeyedBy (runSync reseed1 max bl responses prevPerf prevCat).merged := by
    rw [runSync_merged]
    exact keyedBy_mergeFresh _ _ (keyedBy_buildPrevMap _ _ keyedBy_nil)
  have hhas1 : ∀ i ∈ (runSync reseed1 max bl responses prevPerf prevCat).outIds,
      mapHas (runSync reseed1 max bl responses prevPerf prevCat).merged i = true := by
    rw [runSync_outIds, runSync_merged]
    exact buildOutIds_subset _ _ _ _ max fun p hp hne2 => mergeFresh_has_of_mem hp hne2
  have hne1 : ∀ i ∈ (runSync reseed1 max bl responses prevPerf prevCat).outIds, i ≠ "" :=
    fun i hi => hkeysne i ((mapHas_iff_mem_keys _ i).mp (hhas1 i hi))
  have hmapids : (runSync reseed1 max bl responses prevPerf prevCat).outPerformers.map idFor =
      (runSync reseed1 max bl responses prevPerf prevCat).outIds := by
    rw [runSync_outPerformers]
    exact (filterMap_get_map hkeyed _ hhas1).1
  -- Facts about the second run's tables.
  have hhaspm2 : ∀ i ∈ (runSync reseed1 max bl responses prevPerf prevCat).outIds,
      mapHas (buildPrevMap
        (runSync reseed1 max bl responses prevPerf prevCat).outPerformers []) i = true := by
    intro i hi
    refine buildPrevMap_has_of ?_ (hne1 i hi)
    rw [← hmapids] at hi
    rw [List.mem_map] at hi
    obtain ⟨p, hp, hid⟩ := hi
    exact ⟨p, hp, hid⟩
  have hhas2 : ∀ i ∈ (runSync reseed1 max bl responses prevPerf prevCat).outIds,
      mapHas (mergeFresh (buildPrevMap
        (runSync reseed1 max bl responses prevPerf prevCat).outPerformers [])
        (freshOf responses bl max)) i = true :=
    fun i hi => mergeFresh_has_mono _ (hhaspm2 i hi)
  have hfr1 : (runSync reseed1 max bl responses prevPerf prevCat).outIds.length < max →
      ∀ p ∈ freshOf responses bl max,
        idFor p ∈ (runSync reseed1 max bl responses prevPerf prevCat).outIds := by
    intro hlt p hp
    rw [runSync_outIds] at hlt ⊢
    refine buildOutIds_exhaust _ _ _ _ max hlt (idFor p) ?_
    rw [← mapHas_iff_mem_keys]
    exact mergeFresh_has_of_mem hp (freshOf_good responses bl max p hp)
  have hshort : (runSync reseed1 max bl responses prevPerf prevCat).outIds.length < max →
      ((∀ p ∈ freshOf responses bl max, idFor p = "" ∨
        idFor p ∈ (runSync reseed1 max bl responses prevPerf prevCat).outIds) ∧
      (∀ k ∈ mapKeys (mergeFresh (buildPrevMap
          (runSync reseed1 max bl responses prevPerf prevCat).outPerformers [])
          (freshOf responses bl max)),
        k ∈ (runSync reseed1 max bl responses prevPerf prevCat).outIds)) := by
    intro hlt
    constructor
    · intro p hp
      exact Or.inr (hfr1 hlt p hp)
    · intro k hk
      rw [← mapHas_iff_mem_keys] at hk
      rcases mergeFresh_has_sub hk with hk' | ⟨p, hp, hid⟩
      · rcases buildPrevMap_has_sub hk' with hk'' | ⟨p, hp, hid⟩
        · simp [mapHas] at hk''
        · rw [← hid]
          rw [← hmapids]
          exact List.mem_map_of_mem idFor hp
      · rw [← hid]
        exact hfr1 hlt p hp
  by_cases hw : (runSync reseed1 max bl responses prevPerf prevCat).catWritten = true
  · -- Case: the first run wrote the catalog.
    have hnext : nextPrevCat (runSync reseed1 max bl responses prevPerf prevCat) prevCat =
        some { ids := (runSync reseed1 max bl responses prevPerf prevCat).outIds,
               brands := bl } := by
      rw [nextPrevCat, if_pos hw, runSync_catIds, runSync_catBrands]
    rw [hnext]
    have hpid2 : extractPrevIds (some { ids :=
        (runSync reseed1 max bl responses prevPerf prevCat).outIds, brands := bl }) =
        (runSync reseed1 max bl responses prevPerf prevCat).outIds := by
      simp only [extractPrevIds]
      exact filter_ne_empty_of _ hne1
    have hpbr2 : extractPrevBrands (some { ids :=
        (runSync reseed1 max bl responses prevPerf prevCat).outIds, brands := bl }) = bl := by
      simp only [extractPrevBrands]
      rw [map_self_of bl normalizeBrand fun b hb => (hbl b hb).1]
      exact filter_ne_empty_of bl fun b hb => (hbl b hb).2
    have hnr2 : needReseedB false
        (extractPrevIds (some { ids :=
          (runSync reseed1 max bl responses prevPerf prevCat).outIds, brands := bl }))
        (extractPrevBrands (some { ids :=
          (runSync reseed1 max bl responses prevPerf prevCat).outIds, brands := bl })) bl =
        false := by
      rw [hpid2, hpbr2]
      simp [needReseedB, brandsChangedB_self, List.isEmpty_eq_false, hne]
    have hids2 : (runSync false max bl responses
        (runSync reseed1 max bl responses prevPerf prevCat).outPerformers
        (some { ids := (runSync reseed1 max bl responses prevPerf prevCat).outIds,
                brands := bl })).outIds =
        (runSync reseed1 max bl responses prevPerf prevCat).outIds := by
      rw [runSync_outIds, hnr2, hpid2]
      have hr := buildOutIds_round (freshOf responses bl max)
        (mergeFresh (buildPrevMap
          (runSync reseed1 max bl responses prevPerf prevCat).outPerformers [])
          (freshOf responses bl max))
        (runSync reseed1 max bl responses prevPerf prevCat).outIds [] max
        hgood.1 hgood.2 hne hhas2 hshort (fun _ => rfl)
      rw [List.append_nil] at hr
      exact hr
    refine ⟨hids2, ?_⟩
    rw [runSync_catWritten, hids2, runSync_needReseed, hnr2, hpid2]
    rw [List.take_of_length_le hgood.2]
    rw [(arraysEqual_iff _ _).mpr rfl]
    rfl
  · -- Case: the first run left the catalog untouched.
    have hw' : (runSync reseed1 max bl responses prevPerf prevCat).catWritten = false := by
      cases hx : (runSync reseed1 max bl responses prevPerf prevCat).catWritten
      · rfl
      · exact absurd hx hw
    have hdec := hw'
    rw [runSync_catWritten, Bool.or_eq_false_iff, Bool.or_eq_false_iff] at hdec
    obtain ⟨⟨hnr1, harr⟩, hnone⟩ := hdec
    have htake : (extractPrevIds prevCat).take max =
        (runSync reseed1 max bl responses prevPerf prevCat).outIds := by
      rw [Bool.not_eq_false'] at harr
      exact (arraysEqual_iff _ _).mp harr
    have hnr1' := hnr1
    rw [runSync_needReseed, needReseedB, Bool.or_eq_false_iff, Bool.or_eq_false_iff] at hnr1'
    obtain ⟨⟨-, hempty⟩, hchanged⟩ := hnr1'
    have hnext : nextPrevCat (runSync reseed1 max bl responses prevPerf prevCat) prevCat =
        prevCat := by
      rw [nextPrevCat, if_neg (by rw [hw']; simp)]
    rw [hnext]
    have hsplit : extractPrevIds prevCat =
        (runSync reseed1 max bl responses prevPerf prevCat).outIds ++
          (extractPrevIds prevCat).drop max := by
      rw [← htake, List.take_append_drop]
    have hl2 : (runSync reseed1 max bl responses prevPerf prevCat).outIds.length < max →
        (extractPrevIds prevCat).drop max = [] := by
      intro hlt
      have hlenp : (extractPrevIds prevCat).length ≤ max := by
        by_contra hgt
        push_neg at hgt
        have h1 : ((extractPrevIds prevCat).take max).length = max := by
          rw [List.length_take]
          omega
        rw [htake] at h1
        omega
      exact List.drop_eq_nil_of_le hlenp
    have hnr2 : needReseedB false (extractPrevIds prevCat) (extractPrevBrands prevCat) bl =
        false := by
      simp only [needReseedB, Bool.or_eq_false_iff]
      exact ⟨⟨trivial, hempty⟩, hchanged⟩
    have hids2 : (runSync false max bl responses
        (runSync reseed1 max bl responses prevPerf prevCat).outPerformers prevCat).outIds =
        (runSync reseed1 max bl responses prevPerf prevCat).outIds := by
      rw [runSync_outIds, hnr2]
      have hr := buildOutIds_round (freshOf responses bl max)
        (mergeFresh (buildPrevMap
          (runSync reseed1 max bl responses prevPerf prevCat).outPerformers [])
          (freshOf responses bl max))
        (runSync reseed1 max bl responses prevPerf prevCat).outIds
        ((extractPrevIds prevCat).drop max) max
        hgood.1 hgood.2 hne hhas2 hshort hl2
      rw [← hsplit] at hr
      exact hr
    refine ⟨hids2, ?_⟩
    rw [runSync_catWritten, hids2, runSync_needReseed, hnr2, htake]
    rw [(arraysEqual_iff _ _).mpr rfl]
    rw [show Option.isNone prevCat = false from hnone]
    rfl

/-- Witness for the amended C5 at a concrete input. -/
theorem idempotence_amended_witness :
    (1 ≤ 1 ∧ (∀ b ∈ (["x"] : List String), normalizeBrand b = b ∧ b ≠ "") ∧
      (runSync false 1 ["x"] respEmpty [recOne] none).outIds ≠ []) ∧
    (((runSync false 1 ["x"] respEmpty
        (runSync false 1 ["x"] respEmpty [recOne] none).outPerformers
        (nextPrevCat (runSync false 1 ["x"] respEmpty [recOne] none) none)).outIds =
          (runSync false 1 ["x"] respEmpty [recOne] none).outIds ∧
      (runSync false 1 ["x"] respEmpty
        (runSync false 1 ["x"] respEmpty [recOne] none).outPerformers
        (nextPrevCat (runSync false 1 ["x"] respEmpty [recOne] none) none)).catWritten =
          false) ∧
    (∀ (rs : Bool) (pp : List Performer) (pc : Option CatalogFile),
      (runSync rs 1 ["x"] respEmpty pp pc).catWritten = true ↔
        ((runSync rs 1 ["x"] respEmpty pp pc).needReseed = true ∨
          (extractPrevIds pc).take 1 ≠ (runSync rs 1 ["x"] respEmpty pp pc).outIds ∨
          pc = none))) :=
  ⟨⟨Nat.le_refl 1, by decide, by decide⟩,
    idempotence_amended false 1 ["x"] respEmpty [recOne] none (Nat.le_refl 1)
      (by decide) (by decide)⟩
